import Mathlib

/-!
Verification of the CSP library (`src/main.py`).

The Python module defines a `CSP` class: primary vars with finite integer
domains, binary constraints stored as explicit sets of valid value pairs, and
an encoding of n-ary constraints through synthetic "encoding vars" whose
domains are sets of integer tuples.  This file gives a shallow embedding of
that data model and of the constraint-building operations, together with
theorems about them.

Modelling conventions:
* Python values that can appear in a domain or in a constraint pair are
  modelled by `Val`: an integer, a tuple (of further values), or any other
  Python object (represented by an opaque tag, used to model non-integer
  elements reaching the dynamic `isinstance` checks).
* Python `dict`s are modelled as association lists with first-match lookup
  and replace-or-append update, which preserves insertion order exactly as
  CPython dicts do.
* Python `set`s are modelled as `Finset`s.
* A raised `AttributeError` (and the lower-level `KeyError`/`TypeError` that
  some call paths can produce) is modelled with `Except`; the error value
  carries the state of the `CSP` object at the moment the exception
  propagates, so that claims about mutation-on-failure are expressible.
-/

/-- A dynamic (Python) value appearing in a domain, a constraint pair, or a
supplied truth-table tuple: an `int`, a tuple of values, or any other
object (opaque tag). -/
inductive Val where
  | vi : Int → Val
  | vt : List Val → Val
  | vo : Nat → Val

mutual

def Val.decEq : (a b : Val) → Decidable (a = b)
  | .vi a, .vi b =>
    if h : a = b then .isTrue (by rw [h]) else .isFalse (by intro hh; cases hh; exact h rfl)
  | .vt a, .vt b =>
    match Val.decEqList a b with
    | .isTrue h => .isTrue (by rw [h])
    | .isFalse h => .isFalse (by intro hh; cases hh; exact h rfl)
  | .vo a, .vo b =>
    if h : a = b then .isTrue (by rw [h]) else .isFalse (by intro hh; cases hh; exact h rfl)
  | .vi _, .vt _ => .isFalse (by intro h; cases h)
  | .vi _, .vo _ => .isFalse (by intro h; cases h)
  | .vt _, .vi _ => .isFalse (by intro h; cases h)
  | .vt _, .vo _ => .isFalse (by intro h; cases h)
  | .vo _, .vi _ => .isFalse (by intro h; cases h)
  | .vo _, .vt _ => .isFalse (by intro h; cases h)

def Val.decEqList : (a b : List Val) → Decidable (a = b)
  | [], [] => .isTrue rfl
  | [], _ :: _ => .isFalse (by intro h; cases h)
  | _ :: _, [] => .isFalse (by intro h; cases h)
  | x :: xs, y :: ys =>
    match Val.decEq x y, Val.decEqList xs ys with
    | .isTrue h1, .isTrue h2 => .isTrue (by rw [h1, h2])
    | .isFalse h1, _ => .isFalse (by intro hh; cases hh; exact h1 rfl)
    | _, .isFalse h2 => .isFalse (by intro hh; cases hh; exact h2 rfl)

end

instance : DecidableEq Val := Val.decEq

/-- `isinstance(x, int)` on a dynamic value. -/
def Val.isInt : Val → Bool
  | .vi _ => true
  | _ => false

/-- Extract the integer of an integer value (callers only use this under the
all-integers guard that models Python's dynamic typing). -/
def Val.toIntD : Val → Int
  | .vi n => n
  | _ => 0

/-- First-match lookup in an association list: the model of `dict.__getitem__`
(`some`) / missing key (`none`, where Python raises `KeyError`). -/
def dlookup {α : Type} (m : List (String × α)) (k : String) : Option α :=
  match m with
  | [] => none
  | (k', v) :: rest => if k' = k then some v else dlookup rest k

/-- Replace-or-append update: the model of `dict.update({k: v})`.  An existing
key keeps its position and gets the new value; a new key is appended. -/
def dupdate {α : Type} (m : List (String × α)) (k : String) (v : α) : List (String × α) :=
  match m with
  | [] => [(k, v)]
  | (k', v') :: rest => if k' = k then (k, v) :: rest else (k', v') :: dupdate rest k v

/-- The key list of an association list, in order: the model of `dict.keys()`. -/
def dkeys {α : Type} (m : List (String × α)) : List String :=
  m.map Prod.fst

/-- `[self.domains[v] for v in vs]`: look up every domain in order; `none`
when any key is missing (where Python raises `KeyError`). -/
def lookups (m : List (String × Finset Val)) : List String → Option (List (Finset Val))
  | [] => some []
  | v :: rest =>
    match dlookup m v, lookups m rest with
    | some d, some ds => some (d :: ds)
    | _, _ => none

/-- `itertools.product(*ds)` as a finite set of tuples (the source always
converts the products it builds into sets or consumes them into sets). -/
def listProd (ds : List (Finset Val)) : Finset (List Val) :=
  match ds with
  | [] => {[]}
  | d :: rest => d.biUnion (fun a => (listProd rest).image (a :: ·))

/-- `tuple[i]` on a Python tuple.  All call sites access positions that prior
validation keeps in bounds (Python would raise `IndexError` otherwise). -/
def tupleProj (t : List Val) (i : Nat) : Val := t.getD i (Val.vo 0)

/-- `isinstance(x[i], int)` on a supplied truth-table tuple. -/
def isIntAt (x : List Val) (i : Nat) : Bool :=
  match x.get? i with
  | some v => v.isInt
  | none => false

/-- A binary constraint: an ordered pair of variable names plus the set of
valid value pairs (class `Constraint` in the source). -/
structure Constraint where
  vars : String × String
  valid_tuples : Finset (Val × Val)
deriving DecidableEq

/-- The CSP aggregate (class `CSP` in the source): the set of primary variable
names, the domain mapping (primary and encoding vars), the ordered
constraint list, and the counter used to mint encoding-variable names. -/
structure CSP where
  primary_variables : Finset String
  domains : List (String × Finset Val)
  constraints : List Constraint
  encoding_variables_count : Nat
deriving DecidableEq

/-- `CSP.__init__`. -/
def CSP.init : CSP := ⟨∅, [], [], 0⟩

/-- The name minted for an encoding variable: `"X" + str(count)`. -/
def encName (n : Nat) : String := "X" ++ Nat.repr n

/-- The error kinds of the constraint-building API.  The first five correspond
to the `AttributeError`s raised by the source (in the spec's vocabulary:
`UnknownVariable`, `ArityMismatch`, `TypeMismatch`, `DomainViolation`,
`LengthMismatch`); `keyError` and `typeError` model the `KeyError` /
`TypeError` exceptions Python itself raises on a missing dict key or on
arithmetic over a non-integer. -/
inductive Err where
  | unknownVariable
  | arityMismatch
  | typeMismatch
  | domainViolation
  | lengthMismatch
  | keyError
  | typeError
deriving DecidableEq

/-- Result of an operation that can raise: either the updated CSP, or an error
kind together with the state of the object when the exception propagates. -/
abbrev Res := Except (Err × CSP) CSP

instance : DecidableEq Res := fun a b => by
  cases a <;> cases b
  case ok.ok x y => exact if h : x = y then .isTrue (by rw [h]) else .isFalse (by simp [h])
  case error.error x y => exact if h : x = y then .isTrue (by rw [h]) else .isFalse (by simp [h])
  case ok.error x y => exact .isFalse (by simp)
  case error.ok x y => exact .isFalse (by simp)

/-- `CSP.add_variable`: registers `name` as a primary variable and binds its
domain.  The source performs no duplicate check: an existing name is silently
re-registered and its domain overwritten. -/
def CSP.add_variable (s : CSP) (name : String) (domain : Finset Int) : CSP :=
  { s with
    primary_variables := insert name s.primary_variables
    domains := dupdate s.domains name (domain.image Val.vi) }

/-- `CSP.add_variables`: bulk form of `add_variable`, same domain for all. -/
def CSP.add_variables (s : CSP) (names : List String) (domain : Finset Int) : CSP :=
  names.foldl (fun t n => t.add_variable n domain) s

/-- `CSP.__add_binary_extensional_constraint`: append one `Constraint` built
from the given set of valid value pairs. -/
def CSP.add_binary_extensional_constraint (s : CSP) (v1 v2 : String)
    (valid_tuples : Finset (Val × Val)) : CSP :=
  { s with constraints := s.constraints ++ [⟨(v1, v2), valid_tuples⟩] }

/-- The valid-pair set `{(t[i], t) : t ∈ valid_tuples}` tying position `i` of
the encoded tuples to the encoding variable. -/
def encPairs (valid_tuples : Finset (List Val)) (i : Nat) : Finset (Val × Val) :=
  valid_tuples.image (fun t => (tupleProj t i, Val.vt t))

/-- `CSP.__add_extensional_constraint` (the encoding transformer): increment
the counter, mint the encoding-variable name, bind its domain to the tuple
set, and append one binary constraint `(vars[i], encoding_variable)` per
position `i`, with valid pairs `{(t[i], t) : t ∈ valid_tuples}`. -/
def CSP.add_extensional_constraint (s : CSP) (vars : List String)
    (valid_tuples : Finset (List Val)) : CSP :=
  let count := s.encoding_variables_count + 1
  let e := encName count
  { s with
    encoding_variables_count := count
    domains := dupdate s.domains e (valid_tuples.image Val.vt)
    constraints := s.constraints ++
      (List.range vars.length).map
        (fun i => ⟨(vars.getD i "", e), encPairs valid_tuples i⟩) }

/-- `CSP.__add_binary_constraint_from_function`: enumerate the product of the
two domains, keep the pairs satisfying the predicate, and append the binary
constraint.  The dict subscripts `self.domains[v]` raise `KeyError` on a
missing key. -/
def CSP.add_binary_constraint_from_function (s : CSP) (v1 v2 : String)
    (f : List Val → Bool) : Res :=
  match dlookup s.domains v1, dlookup s.domains v2 with
  | some d1, some d2 =>
    .ok (s.add_binary_extensional_constraint v1 v2
      ((d1.product d2).filter (fun p => f [p.1, p.2])))
  | _, _ => .error (.keyError, s)

/-- `CSP.__add_constraint_from_function`: enumerate the product of all the
domains, keep the tuples satisfying the predicate, and hand the set to the
encoding transformer. -/
def CSP.add_constraint_from_function (s : CSP) (vars : List String)
    (f : List Val → Bool) : Res :=
  match lookups s.domains vars with
  | some ds => .ok (s.add_extensional_constraint vars ((listProd ds).filter (fun t => f t)))
  | none => .error (.keyError, s)

/-- The second argument of `CSP.add_constraint`: either an explicit tuple
collection or a predicate (the source dispatches on
`isinstance(·, Iterable)` / `isinstance(·, Callable)`; a Python call
`function(*tuple)` is modelled by applying the predicate to the tuple). -/
inductive TruthTable where
  | table : List (List Val) → TruthTable
  | func : (List Val → Bool) → TruthTable

/-- `CSP.add_constraint`: validation in source order, then either a direct
binary constraint (arity 2) or the encoding transformer (other arities).
The source's first check, `all(isinstance(x, Variable) for x in vars)`,
always passes here because the model types variable names as strings.
For the extensional branch the checks are, in order: every tuple has the
arity of the variable list; positions 0 and 1 of every tuple are integers
(the source inspects only `x[0]` and `x[1]`); every tuple belongs to the
cartesian product of the domains. -/
def CSP.add_constraint (s : CSP) (vars : List String) (truth_table : TruthTable) : Res :=
  if vars.toFinset ⊆ s.primary_variables then
    match truth_table with
    | .table t =>
      if t.all (fun x => x.length = vars.length) then
        if t.all (fun x => isIntAt x 0 && isIntAt x 1) then
          match lookups s.domains vars with
          | some ds =>
            if t.toFinset ⊆ listProd ds then
              if vars.length = 2 then
                .ok (s.add_binary_extensional_constraint
                  (vars.getD 0 "") (vars.getD 1 "")
                  (t.toFinset.image (fun x => (tupleProj x 0, tupleProj x 1))))
              else
                .ok (s.add_extensional_constraint vars t.toFinset)
            else .error (.domainViolation, s)
          | none => .error (.keyError, s)
        else .error (.typeMismatch, s)
      else .error (.arityMismatch, s)
    | .func f =>
      if vars.length = 2 then
        s.add_binary_constraint_from_function
          (vars.getD 0 "") (vars.getD 1 "") f
      else
        s.add_constraint_from_function vars f
  else .error (.unknownVariable, s)

/-- `itertools.combinations(l, 2)`, in order. -/
def pairsOf {α : Type} : List α → List (α × α)
  | [] => []
  | x :: xs => xs.map (fun y => (x, y)) ++ pairsOf xs

/-- The loop body of `CSP.diff`: for each pair, build the set of unequal value
pairs from the two domains and append the binary constraint. -/
def CSP.diff_go (s : CSP) : List (String × String) → Res
  | [] => .ok s
  | (v1, v2) :: rest =>
    match dlookup s.domains v1, dlookup s.domains v2 with
    | some d1, some d2 =>
      CSP.diff_go
        (s.add_binary_extensional_constraint v1 v2
          ((d1.product d2).filter (fun p => p.1 ≠ p.2)))
        rest
    | _, _ => .error (.keyError, s)

/-- `CSP.diff`: check the vars are declared, then add one

disequality constraint per unordered pair. -/
def CSP.diff (s : CSP) (vars : List String) : Res :=
  if vars.toFinset ⊆ s.primary_variables then s.diff_go (pairsOf vars)
  else .error (.unknownVariable, s)

/-- `CSP.all_diff`: `diff` over all primary variables.  Iteration over the
Python set (whose order is arbitrary) is modelled by the sorted name list. -/
def CSP.all_diff (s : CSP) : Res :=
  s.diff (s.primary_variables.sort (fun a b => a ≤ b))

/-- The comparison operator of `weighted_sum` (`Literal["<", "=", ">"]`; the
source's final `else` branch plays the role of `">"`). -/
inductive Op where
  | lt
  | eq
  | gt
deriving DecidableEq

/-- `sum OP value`. -/
def Op.comp : Op → Int → Int → Bool
  | .lt, a, b => a < b
  | .eq, a, b => a = b
  | .gt, a, b => a > b

/-- `sum(weights[i] * tuple[i] for i in range(N))` with `N = len(weights)`
(equal to the number of vars after the length check). -/
def wsum (weights : List Int) (t : List Val) : Int :=
  ((List.range weights.length).map (fun i => weights.getD i 0 * (tupleProj t i).toIntD)).sum

/-- `CSP.weighted_sum`: default the variable list to the primary vars and
the weights to all ones, check the lengths, enumerate the product of the
domains, keep the tuples whose weighted sum compares as requested, and hand
the set to the encoding transformer.  A missing domain key raises `KeyError`;
a non-integer domain element reached by the enumeration makes the arithmetic
raise `TypeError` (both before any mutation).  Weights and the target are
modelled as integers. -/
def wsVars (s : CSP) : Option (List String) → List String
  | none => s.primary_variables.sort (fun a b => a ≤ b)
  | some l => l

def wsWeights (n : Nat) : Option (List Int) → List Int
  | none => List.replicate n 1
  | some l => l

def CSP.weighted_sum (s : CSP) (vars : Option (List String))
    (weights : Option (List Int)) (operator : Op) (value : Int) : Res :=
  if (wsVars s vars).length = (wsWeights (wsVars s vars).length weights).length then
    match lookups s.domains (wsVars s vars) with
    | some ds =>
      if ∀ t ∈ listProd ds, ∀ x ∈ t, x.isInt then
        .ok (s.add_extensional_constraint (wsVars s vars)
          ((listProd ds).filter
            (fun t => Op.comp operator (wsum (wsWeights (wsVars s vars).length weights) t) value)))
      else .error (.typeError, s)
    | none => .error (.keyError, s)
  else .error (.lengthMismatch, s)

/-- The fold inside `min(self.domains.keys(), key=lambda k: len(self.domains[k]))`:
CPython's `min` keeps the first element and replaces it only on a strictly
smaller key. -/
def minDomVar (best : String) (bcard : Nat) : List (String × Finset Val) → String
  | [] => best
  | (k, d) :: rest =>
    if d.card < bcard then minDomVar k d.card rest else minDomVar best bcard rest

/-- `CSP.variable_with_minimal_domain`: `min` over the domain keys by domain
size; `min` of an empty mapping raises (`none`). -/
def CSP.variable_with_minimal_domain (s : CSP) : Option String :=
  match s.domains with
  | [] => none
  | (k, d) :: rest => some (minDomVar k d.card rest)

/-- Satisfaction of every constraint in `cs` by a total assignment: each
constrained pair of assigned values is a member of the constraint's
valid-pair set. -/
def assignSat (cs : List Constraint) (f : String → Val) : Prop :=
  ∀ c ∈ cs, (f c.vars.1, f c.vars.2) ∈ c.valid_tuples

/-- Modelled from the spec: the consistency check of the backtracking search
(§4.4 step 4) — a partial assignment is consistent when every constraint both
of whose variables are assigned relates the two assigned values.  The source's
`CSP.backtrack` body is empty (`pass`), so this and the functions below follow
the spec's algorithm description. -/
def consistentB (cs : List Constraint) (a : List (String × Val)) : Bool :=
  cs.all (fun c =>
    match dlookup a c.vars.1, dlookup a c.vars.2 with
    | some x, some y => decide ((x, y) ∈ c.valid_tuples)
    | _, _ => true)

/-- Modelled from the spec: the backtracking search of §4.4, absent from the
source (`CSP.backtrack` is declared with strategy parameters but its body is
`pass`).  `order` is the variable order chosen by the variable-ordering
strategy; `vord` produces the candidate value order of a domain (the
value-ordering strategy); `a` is the partial assignment.  When `order` is
exhausted the assignment is complete and returned (§4.4 step 1); otherwise
each candidate value of the next variable is tried in order (steps 4–5):
assign it, keep it only if the assignment stays consistent and the recursive
search succeeds, and otherwise undo it and fall through to the next
candidate. -/
def bt (cs : List Constraint) (doms : List (String × Finset Val))
    (vord : String → Finset Val → List Val) :
    List String → List (String × Val) → Option (List (String × Val))
  | [], a => some a
  | v :: rest, a =>
    (vord v ((dlookup doms v).getD ∅)).foldr
      (fun x next =>
        if consistentB cs ((v, x) :: a) then
          match bt cs doms vord rest ((v, x) :: a) with
          | some r => some r
          | none => next
        else next)
      none

/-- Modelled from the spec: the solver entry point of §4.4 (`solve` /
`CSP.backtrack`, unimplemented in the source).  It runs the backtracking
search from the empty assignment and, per step 1, returns the complete
assignment restricted to the primary variables (`none` plays the role of the
`Unsatisfiable` outcome). -/
def CSP.solve (s : CSP) (vord : String → Finset Val → List Val)
    (order : List String) : Option (List (String × Val)) :=
  (bt s.constraints s.domains vord order []).map
    (fun r => r.filter (fun p => decide (p.1 ∈ s.primary_variables)))

/-- The states reachable from a fresh `CSP()` by the public mutating API
(declarations and successful constraint additions; a failed addition leaves
the state unchanged, so it moves to no new state). -/
inductive Reachable : CSP → Prop where
  | init : Reachable CSP.init
  | add_var {s : CSP} {n : String} {d : Finset Int} :
      Reachable s → Reachable (s.add_variable n d)
  | add_cons {s s' : CSP} {vs : List String} {tt : TruthTable} :
      Reachable s → s.add_constraint vs tt = .ok s' → Reachable s'
  | diff_ok {s s' : CSP} {vs : List String} :
      Reachable s → s.diff vs = .ok s' → Reachable s'
  | all_diff_ok {s s' : CSP} :
      Reachable s → s.all_diff = .ok s' → Reachable s'
  | ws_ok {s s' : CSP} {vs : Option (List String)} {ws : Option (List Int)}
      {op : Op} {v : Int} :
      Reachable s → s.weighted_sum vs ws op v = .ok s' → Reachable s'

/-- The state component of a result: the updated CSP on success, the state at
the moment of the raise on failure. -/
def Res.state : Res → CSP
  | .ok s => s
  | .error (_, s) => s

/-- Whether a result is a success. -/
def Res.ok? : Res → Bool
  | .ok _ => true
  | .error _ => false

/-! ### Association-list (dict) lemmas -/

theorem dlookup_nil {α : Type} (k : String) : dlookup ([] : List (String × α)) k = none := rfl

theorem dlookup_cons {α : Type} (k0 : String) (v0 : α) (rest : List (String × α)) (k : String) :
    dlookup ((k0, v0) :: rest) k = if k0 = k then some v0 else dlookup rest k := rfl

theorem dupdate_nil {α : Type} (k : String) (v : α) :
    dupdate ([] : List (String × α)) k v = [(k, v)] := rfl

theorem dupdate_cons {α : Type} (k0 : String) (v0 : α) (rest : List (String × α)) (k : String)
    (v : α) :
    dupdate ((k0, v0) :: rest) k v =
      if k0 = k then (k, v) :: rest else (k0, v0) :: dupdate rest k v := rfl

theorem dlookup_dupdate_self {α : Type} (m : List (String × α)) (k : String) (v : α) :
    dlookup (dupdate m k v) k = some v := by
  induction m with
  | nil => rw [dupdate_nil, dlookup_cons, if_pos rfl]
  | cons p rest ih =>
    obtain ⟨k0, v0⟩ := p
    rw [dupdate_cons]
    by_cases h0 : k0 = k
    · rw [if_pos h0, dlookup_cons, if_pos rfl]
    · rw [if_neg h0, dlookup_cons, if_neg h0, ih]

theorem dlookup_dupdate_ne {α : Type} (m : List (String × α)) (k k' : String) (v : α)
    (h : k' ≠ k) : dlookup (dupdate m k v) k' = dlookup m k' := by
  induction m with
  | nil => rw [dupdate_nil, dlookup_cons, if_neg (Ne.symm h), dlookup_nil]
  | cons p rest ih =>
    obtain ⟨k0, v0⟩ := p
    rw [dupdate_cons]
    by_cases h0 : k0 = k
    · rw [if_pos h0, dlookup_cons, if_neg (Ne.symm h), dlookup_cons, h0,
        if_neg (Ne.symm h)]
    · rw [if_neg h0, dlookup_cons, dlookup_cons, ih]

theorem dlookup_mem {α : Type} {m : List (String × α)} {k : String} {v : α}
    (h : dlookup m k = some v) : (k, v) ∈ m := by
  induction m with
  | nil => exact absurd h (by rw [dlookup_nil]; exact Option.noConfusion)
  | cons p rest ih =>
    obtain ⟨k0, v0⟩ := p
    rw [dlookup_cons] at h
    by_cases h0 : k0 = k
    · rw [if_pos h0] at h
      injection h with h1
      exact h0 ▸ h1 ▸ List.mem_cons_self _ _
    · rw [if_neg h0] at h
      exact List.mem_cons_of_mem _ (ih h)

theorem dlookup_isSome_of_mem_keys {α : Type} {m : List (String × α)} {k : String}
    (h : k ∈ dkeys m) : (dlookup m k).isSome := by
  induction m with
  | nil => simp [dkeys] at h
  | cons p rest ih =>
    obtain ⟨k0, v0⟩ := p
    rw [dlookup_cons]
    by_cases h0 : k0 = k
    · rw [if_pos h0]; rfl
    · rw [if_neg h0]
      rcases List.mem_cons.mp h with h1 | h1
      · exact absurd h1.symm h0
      · exact ih h1

theorem dlookup_eq_of_mem_of_nodup {α : Type} {m : List (String × α)} {k : String} {v : α}
    (hnd : (dkeys m).Nodup) (h : (k, v) ∈ m) : dlookup m k = some v := by
  induction m with
  | nil => simp at h
  | cons p rest ih =>
    obtain ⟨k0, v0⟩ := p
    have hnd' : k0 ∉ dkeys rest ∧ (dkeys rest).Nodup := by
      simpa [dkeys] using hnd
    rw [dlookup_cons]
    rcases List.mem_cons.mp h with h1 | h1
    · injection h1 with h2 h3
      rw [if_pos h2.symm, h3]
    · have hk : k0 ≠ k := by
        rintro rfl
        exact hnd'.1 (List.mem_map.mpr ⟨(k0, v), h1, rfl⟩)
      rw [if_neg hk]
      exact ih hnd'.2 h1

theorem mem_keys_dupdate {α : Type} (m : List (String × α)) (k a : String) (v : α) :
    a ∈ dkeys (dupdate m k v) ↔ a ∈ dkeys m ∨ a = k := by
  induction m with
  | nil => simp [dupdate_nil, dkeys]
  | cons p rest ih =>
    obtain ⟨k0, v0⟩ := p
    rw [dupdate_cons]
    by_cases h0 : k0 = k
    · subst h0
      rw [if_pos rfl]
      simp only [dkeys, List.map_cons, List.mem_cons]
      tauto
    · simp only [if_neg h0, dkeys, List.map_cons, List.mem_cons]
      have ih' : a ∈ List.map Prod.fst (dupdate rest k v) ↔
          a ∈ List.map Prod.fst rest ∨ a = k := ih
      rw [ih']
      tauto

theorem nodup_keys_dupdate {α : Type} {m : List (String × α)} (k : String) (v : α)
    (hnd : (dkeys m).Nodup) : (dkeys (dupdate m k v)).Nodup := by
  induction m with
  | nil => simp [dupdate_nil, dkeys]
  | cons p rest ih =>
    obtain ⟨k0, v0⟩ := p
    have hnd' : k0 ∉ dkeys rest ∧ (dkeys rest).Nodup := by
      simpa [dkeys] using hnd
    rw [dupdate_cons]
    by_cases h0 : k0 = k
    · subst h0
      rw [if_pos rfl]
      simp only [dkeys, List.map_cons, List.nodup_cons]
      exact hnd'
    · simp only [if_neg h0, dkeys, List.map_cons, List.nodup_cons]
      refine ⟨?_, ih hnd'.2⟩
      intro hmem
      rcases (mem_keys_dupdate rest k k0 v).mp hmem with h1 | h1
      · exact hnd'.1 h1
      · exact h0 h1

/-! ### Cartesian-product lemmas -/

theorem mem_listProd {ds : List (Finset Val)} {x : List Val} :
    x ∈ listProd ds ↔ List.Forall₂ (fun a d => a ∈ d) x ds := by
  induction ds generalizing x with
  | nil =>
    simp only [listProd, Finset.mem_singleton, List.forall₂_nil_right_iff]
  | cons d rest ih =>
    simp only [listProd, Finset.mem_biUnion, Finset.mem_image]
    constructor
    · rintro ⟨a, ha, y, hy, rfl⟩
      exact List.Forall₂.cons ha (ih.mp hy)
    · intro h
      cases h with
      | cons ha hy => exact ⟨_, ha, _, ih.mpr hy, rfl⟩

theorem length_eq_of_mem_listProd {ds : List (Finset Val)} {x : List Val}
    (h : x ∈ listProd ds) : x.length = ds.length :=
  (mem_listProd.mp h).length_eq

/-! ### Claim C1: the encoding transformer -/

/-- Claim C1: for every encoding variable `E` created by adding an n-ary
constraint over variables `vs` with validated tuple set `T`, the domain stored
for `E` is exactly `T` (each tuple stored as a tuple value), and for each
position `i` exactly one Constraint `(vs[i], E)` is appended whose valid-pair
set is exactly `{(t[i], t) : t ∈ T}`. -/
theorem C1_encoding_transformer (s : CSP) (vs : List String) (T : Finset (List Val))
    (hT : ∀ t ∈ T, t.length = vs.length) :
    dlookup (s.add_extensional_constraint vs T).domains
        (encName (s.encoding_variables_count + 1)) = some (T.image Val.vt) ∧
    (∀ l : List Val, Val.vt l ∈ T.image Val.vt ↔ l ∈ T) ∧
    (s.add_extensional_constraint vs T).constraints.length =
      s.constraints.length + vs.length ∧
    (s.add_extensional_constraint vs T).constraints.take s.constraints.length =
      s.constraints ∧
    (∀ i, i < vs.length →
      (s.add_extensional_constraint vs T).constraints[s.constraints.length + i]? =
        some ⟨(vs.getD i "", encName (s.encoding_variables_count + 1)), encPairs T i⟩) ∧
    (∀ i (p : Val × Val), p ∈ encPairs T i ↔ ∃ t ∈ T, p = (tupleProj t i, Val.vt t)) := by
  refine ⟨?_, ?_, ?_, ?_, ?_, ?_⟩
  · exact dlookup_dupdate_self _ _ _
  · intro l
    simp only [Finset.mem_image]
    constructor
    · rintro ⟨t, ht, heq⟩
      injection heq with h
      exact h ▸ ht
    · intro hl
      exact ⟨l, hl, rfl⟩
  · simp [CSP.add_extensional_constraint]
  · exact List.take_left _ _
  · intro i hi
    show (s.constraints ++ (List.range vs.length).map
        (fun i => ⟨(vs.getD i "", encName (s.encoding_variables_count + 1)),
          encPairs T i⟩))[s.constraints.length + i]? = _
    rw [List.getElem?_append_right (Nat.le_add_right _ _), Nat.add_sub_cancel_left,
      List.getElem?_map, List.getElem?_range hi]
    rfl
  · intro i p
    simp only [encPairs, Finset.mem_image]
    constructor
    · rintro ⟨t, ht, rfl⟩
      exact ⟨t, ht, rfl⟩
    · rintro ⟨t, ht, rfl⟩
      exact ⟨t, ht, rfl⟩

/-- Witness for C1 at a concrete input: three variables with singleton domains
and the tuple set `{(1, 1, 1)}`. -/
theorem C1_encoding_transformer_witness :
    (∀ t ∈ ({[Val.vi 1, Val.vi 1, Val.vi 1]} : Finset (List Val)), t.length =
      (["a", "b", "c"] : List String).length) ∧
    dlookup (CSP.init.add_extensional_constraint ["a", "b", "c"]
        {[Val.vi 1, Val.vi 1, Val.vi 1]}).domains (encName 1) =
      some (({[Val.vi 1, Val.vi 1, Val.vi 1]} : Finset (List Val)).image Val.vt) :=
  ⟨by decide,
   (C1_encoding_transformer CSP.init ["a", "b", "c"] {[Val.vi 1, Val.vi 1, Val.vi 1]}
     (by decide)).1⟩

/-! ### Claim C5: re-declaration of a variable -/

/-- Counterexample to claim C5: `add_variable` performs no duplicate check, so
re-declaring `"a"` raises no error — the function is total — and the
previously stored domain `{1, 2}` is replaced by `{3}` rather than left
unchanged. -/
theorem C5_counterexample :
    dlookup ((CSP.init.add_variable "a" {1, 2}).add_variable "a" {3}).domains "a" =
      some ({Val.vi 3} : Finset Val) ∧
    dlookup (CSP.init.add_variable "a" {1, 2}).domains "a" =
      some ({Val.vi 1, Val.vi 2} : Finset Val) ∧
    "a" ∈ ((CSP.init.add_variable "a" {1, 2}).add_variable "a" {3}).primary_variables := by
  decide

/-- Claim C5, amended: declaring a variable whose name is already declared
raises no error; the declaration succeeds and the previously stored domain is
silently overwritten with the new one (other bindings are untouched). -/
theorem C5_add_variable_overwrites (s : CSP) (n : String) (d : Finset Int) :
    (s.add_variable n d).primary_variables = insert n s.primary_variables ∧
    dlookup (s.add_variable n d).domains n = some (d.image Val.vi) ∧
    (∀ m, m ≠ n → dlookup (s.add_variable n d).domains m = dlookup s.domains m) := by
  refine ⟨rfl, dlookup_dupdate_self _ _ _, ?_⟩
  intro m hm
  exact dlookup_dupdate_ne _ _ _ _ hm

/-! ### Claim C3: the integer check of `add_constraint` -/

def c3CSP : CSP := ((CSP.init.add_variable "a" {1}).add_variable "b" {1}).add_variable "c" {1}

/-- Counterexample to claim C3: with variables `a, b, c` (domains `{1}`) and
the single tuple `(1, 1, x)` whose third element is not an integer, the call
does not fail with `TypeMismatch`: the source checks `isinstance` only on
`x[0]` and `x[1]`, so the tuple passes the integer check and is rejected by
the later cartesian-product check, raising `DomainViolation` instead. -/
theorem C3_counterexample :
    c3CSP.add_constraint ["a", "b", "c"] (.table [[Val.vi 1, Val.vi 1, Val.vo 0]]) =
      .error (.domainViolation, c3CSP) := by
  decide

theorem exists_mem_of_forall2_mem {x : List Val} {ds : List (Finset Val)}
    (hf : List.Forall₂ (fun a d => a ∈ d) x ds) {e : Val} (he : e ∈ x) :
    ∃ d ∈ ds, e ∈ d := by
  induction hf with
  | nil => simp at he
  | cons ha hrest ih =>
    rcases List.mem_cons.mp he with rfl | hmem
    · exact ⟨_, List.mem_cons_self _ _, ha⟩
    · obtain ⟨d, hd, hed⟩ := ih hmem
      exact ⟨d, List.mem_cons_of_mem _ hd, hed⟩

/-- Unfolding of the extensional branch of `add_constraint` once the first
three validation steps pass. -/
theorem add_constraint_table_eq (s : CSP) (vs : List String) (tt : List (List Val))
    (hsub : vs.toFinset ⊆ s.primary_variables)
    (h1 : tt.all (fun x => x.length = vs.length) = true)
    (h2 : tt.all (fun x => isIntAt x 0 && isIntAt x 1) = true)
    {ds : List (Finset Val)} (hds : lookups s.domains vs = some ds) :
    s.add_constraint vs (.table tt) =
      if tt.toFinset ⊆ listProd ds then
        if vs.length = 2 then
          .ok (s.add_binary_extensional_constraint (vs.getD 0 "") (vs.getD 1 "")
            (tt.toFinset.image (fun x => (tupleProj x 0, tupleProj x 1))))
        else .ok (s.add_extensional_constraint vs tt.toFinset)
      else .error (.domainViolation, s) := by
  rw [CSP.add_constraint, if_pos hsub, if_pos h1, if_pos h2, hds]

/-- Claim C3, amended: after a passing arity check, a non-integer at position
0 or 1 of some tuple makes the call fail with `TypeMismatch`; a non-integer
at a later position passes the integer check, and (when the declared domains
contain only integers) the tuple then fails the cartesian-product membership
check, so the call fails with `DomainViolation` instead. -/
theorem C3_integer_check (s : CSP) (vs : List String) (tt : List (List Val))
    (hsub : vs.toFinset ⊆ s.primary_variables)
    (har : ∀ x ∈ tt, x.length = vs.length) :
    (¬ (∀ x ∈ tt, isIntAt x 0 ∧ isIntAt x 1) →
      s.add_constraint vs (.table tt) = .error (.typeMismatch, s)) ∧
    ((∀ x ∈ tt, isIntAt x 0 ∧ isIntAt x 1) →
      ∀ ds : List (Finset Val), lookups s.domains vs = some ds →
      (∀ d ∈ ds, ∀ y ∈ d, y.isInt) →
      (∃ x ∈ tt, ∃ e ∈ x, ¬ e.isInt) →
      s.add_constraint vs (.table tt) = .error (.domainViolation, s)) := by
  have h1 : tt.all (fun x => x.length = vs.length) = true := by
    rw [List.all_eq_true]
    intro x hx
    exact decide_eq_true (har x hx)
  constructor
  · intro hbad
    rw [CSP.add_constraint, if_pos hsub, if_pos h1]
    have h2 : ¬ (tt.all (fun x => isIntAt x 0 && isIntAt x 1) = true) := by
      rw [List.all_eq_true]
      intro hall
      apply hbad
      intro x hx
      have := hall x hx
      rw [Bool.and_eq_true] at this
      exact ⟨this.1, this.2⟩
    rw [if_neg h2]
  · intro hgood ds hds hints ⟨x, hx, e, he, hne⟩
    have h2 : tt.all (fun x => isIntAt x 0 && isIntAt x 1) = true := by
      rw [List.all_eq_true]
      intro y hy
      rw [Bool.and_eq_true]
      exact hgood y hy
    rw [add_constraint_table_eq s vs tt hsub h1 h2 hds]
    have h3 : ¬ (tt.toFinset ⊆ listProd ds) := by
      intro hsubp
      have hxm : x ∈ listProd ds := hsubp (List.mem_toFinset.mpr hx)
      obtain ⟨d, hd, hed⟩ := exists_mem_of_forall2_mem (mem_listProd.mp hxm) he
      exact hne (hints d hd e hed)
    rw [if_neg h3]

/-- Witness for the amended C3 at a concrete input: the second part applied to
the counterexample tuple `(1, 1, x)` yields the `DomainViolation` failure. -/
theorem C3_integer_check_witness :
    ((["a", "b", "c"] : List String).toFinset ⊆ c3CSP.primary_variables) ∧
    (∀ x ∈ [[Val.vi 1, Val.vi 1, Val.vo 0]], x.length =
      (["a", "b", "c"] : List String).length) ∧
    c3CSP.add_constraint ["a", "b", "c"] (.table [[Val.vi 1, Val.vi 1, Val.vo 0]]) =
      .error (.domainViolation, c3CSP) := by
  refine ⟨by decide, by decide, ?_⟩
  refine (C3_integer_check c3CSP ["a", "b", "c"] [[Val.vi 1, Val.vi 1, Val.vo 0]]
    (by decide) (by decide)).2 (by decide)
    [({Val.vi 1} : Finset Val), {Val.vi 1}, {Val.vi 1}] (by decide) (by decide) ?_
  exact ⟨[Val.vi 1, Val.vi 1, Val.vo 0], by decide, Val.vo 0, by decide, by decide⟩

/-! ### Claim C10: the minimum-domain variable -/

theorem minDomVar_spec (rest : List (String × Finset Val)) (best : String) (bcard : Nat) :
    ∃ c : Nat,
      ((minDomVar best bcard rest = best ∧ c = bcard) ∨
        (∃ d, (minDomVar best bcard rest, d) ∈ rest ∧ c = d.card)) ∧
      c ≤ bcard ∧ ∀ p ∈ rest, c ≤ p.2.card := by
  induction rest generalizing best bcard with
  | nil => exact ⟨bcard, Or.inl ⟨rfl, rfl⟩, le_refl _, by simp⟩
  | cons p rest ih =>
    obtain ⟨k, d⟩ := p
    have hunf : minDomVar best bcard ((k, d) :: rest) =
        if d.card < bcard then minDomVar k d.card rest else minDomVar best bcard rest := rfl
    rw [hunf]
    by_cases h : d.card < bcard
    · rw [if_pos h]
      obtain ⟨c, hw, hc, hmin⟩ := ih k d.card
      refine ⟨c, ?_, le_of_lt (lt_of_le_of_lt hc h), ?_⟩
      · rcases hw with ⟨heq, hcc⟩ | ⟨d', hd', hcc⟩
        · exact Or.inr ⟨d, by rw [heq]; exact List.mem_cons_self _ _, hcc⟩
        · exact Or.inr ⟨d', List.mem_cons_of_mem _ hd', hcc⟩
      · intro q hq
        rcases List.mem_cons.mp hq with rfl | hq'
        · exact hc
        · exact hmin q hq'
    · rw [if_neg h]
      obtain ⟨c, hw, hc, hmin⟩ := ih best bcard
      refine ⟨c, ?_, hc, ?_⟩
      · rcases hw with ⟨heq, hcc⟩ | ⟨d', hd', hcc⟩
        · exact Or.inl ⟨heq, hcc⟩
        · exact Or.inr ⟨d', List.mem_cons_of_mem _ hd', hcc⟩
      · intro q hq
        rcases List.mem_cons.mp hq with rfl | hq'
        · exact le_trans hc (le_of_not_lt h)
        · exact hmin q hq'

/-- Claim C10: on a non-empty domain mapping, `variable_with_minimal_domain`
returns a variable of the mapping — primary or encoding alike — whose domain
size is minimal among all variables; on the empty mapping there is no result
(Python's `min(())` raises). -/
theorem C10_variable_with_minimal_domain (s : CSP) (hnd : (dkeys s.domains).Nodup) :
    (s.domains = [] → s.variable_with_minimal_domain = none) ∧
    (s.domains ≠ [] →
      ∃ v d, s.variable_with_minimal_domain = some v ∧ dlookup s.domains v = some d ∧
        ∀ u du, dlookup s.domains u = some du → d.card ≤ du.card) := by
  constructor
  · intro h
    rw [CSP.variable_with_minimal_domain, h]
  · intro h
    obtain ⟨⟨k, d0⟩, rest, hs⟩ : ∃ p rest, s.domains = p :: rest := by
      cases hs : s.domains with
      | nil => exact absurd hs h
      | cons p rest => exact ⟨p, rest, rfl⟩
    obtain ⟨c, hw, hc, hmin⟩ := minDomVar_spec rest k d0.card
    have hres : s.variable_with_minimal_domain = some (minDomVar k d0.card rest) := by
      rw [CSP.variable_with_minimal_domain, hs]
    rcases hw with ⟨heq, hcc⟩ | ⟨d', hd', hcc⟩
    · refine ⟨k, d0, heq ▸ hres, ?_, ?_⟩
      · rw [hs, dlookup_cons, if_pos rfl]
      · intro u du hu
        have := dlookup_mem hu
        rw [hs] at this
        rcases List.mem_cons.mp this with h0 | h0
        · injection h0 with h1 h2
          subst h2
          exact le_refl _
        · subst hcc
          exact hmin _ h0
    · refine ⟨minDomVar k d0.card rest, d', hres, ?_, ?_⟩
      · apply dlookup_eq_of_mem_of_nodup hnd
        rw [hs]
        exact List.mem_cons_of_mem _ hd'
      · intro u du hu
        have := dlookup_mem hu
        rw [hs] at this
        subst hcc
        rcases List.mem_cons.mp this with h0 | h0
        · injection h0 with h1 h2
          subst h2
          exact hc
        · exact hmin _ h0

/-- Witness for C10 at a concrete input: a mapping with one primary variable
(two values) and one encoding variable (one tuple); the encoding variable has
the smaller domain and is returned. -/
theorem C10_variable_with_minimal_domain_witness :
    (dkeys ((CSP.init.add_variable "a" {1, 2}).add_extensional_constraint ["a"]
        {[Val.vi 1]}).domains).Nodup ∧
    (((CSP.init.add_variable "a" {1, 2}).add_extensional_constraint ["a"]
        {[Val.vi 1]}).domains ≠ [] →
      ∃ v d, ((CSP.init.add_variable "a" {1, 2}).add_extensional_constraint ["a"]
          {[Val.vi 1]}).variable_with_minimal_domain = some v ∧
        dlookup ((CSP.init.add_variable "a" {1, 2}).add_extensional_constraint ["a"]
          {[Val.vi 1]}).domains v = some d ∧
        ∀ u du, dlookup ((CSP.init.add_variable "a" {1, 2}).add_extensional_constraint ["a"]
          {[Val.vi 1]}).domains u = some du → d.card ≤ du.card) :=
  ⟨by decide,
   (C10_variable_with_minimal_domain _ (by decide)).2⟩

/-! ### Claim C9: `weighted_sum` over two variables still uses the encoding -/

/-- Unfolding of `weighted_sum` with explicit variables and weights once the
length check passes and every domain is present. -/
theorem weighted_sum_some_eq (s : CSP) (vs : List String) (ws : List Int) (op : Op)
    (value : Int) (hlen : vs.length = ws.length)
    {ds : List (Finset Val)} (hds : lookups s.domains vs = some ds) :
    s.weighted_sum (some vs) (some ws) op value =
      if ∀ t ∈ listProd ds, ∀ x ∈ t, x.isInt then
        .ok (s.add_extensional_constraint vs
          ((listProd ds).filter (fun t => Op.comp op (wsum ws t) value)))
      else .error (.typeError, s) := by
  rw [CSP.weighted_sum]
  rw [show wsVars s (some vs) = vs from rfl, show wsWeights vs.length (some ws) = ws from rfl]
  rw [if_pos hlen, hds]


/-- Claim C9: a `weighted_sum` call over exactly two declared variables is
routed through the encoding transformer — a fresh encoding variable is minted
whose domain is the valid tuple set, the two appended constraints each tie one
of the variables to the encoding variable, and no direct constraint between
the two variables is created; by contrast a successful arity-2 `add_constraint`
appends exactly one direct Constraint between them (and mints nothing). -/
theorem C9_weighted_sum_routes_through_encoding (s : CSP) (v1 v2 : String) (ws : List Int)
    (op : Op) (value : Int)
    (hlen : ws.length = 2)
    (d1 d2 : Finset Int)
    (hd1 : dlookup s.domains v1 = some (d1.image Val.vi))
    (hd2 : dlookup s.domains v2 = some (d2.image Val.vi))
    (hne1 : v1 ≠ encName (s.encoding_variables_count + 1))
    (hne2 : v2 ≠ encName (s.encoding_variables_count + 1)) :
    ∃ T : Finset (List Val),
      s.weighted_sum (some [v1, v2]) (some ws) op value =
        .ok (s.add_extensional_constraint [v1, v2] T) ∧
      (s.add_extensional_constraint [v1, v2] T).encoding_variables_count =
        s.encoding_variables_count + 1 ∧
      dlookup (s.add_extensional_constraint [v1, v2] T).domains
        (encName (s.encoding_variables_count + 1)) = some (T.image Val.vt) ∧
      (s.add_extensional_constraint [v1, v2] T).constraints =
        s.constraints ++
          [⟨(v1, encName (s.encoding_variables_count + 1)), encPairs T 0⟩,
           ⟨(v2, encName (s.encoding_variables_count + 1)), encPairs T 1⟩] ∧
      (∀ c ∈ ((s.add_extensional_constraint [v1, v2] T).constraints.drop
          s.constraints.length),
        c.vars ≠ (v1, v2) ∧ c.vars ≠ (v2, v1)) ∧
      (∀ (tt : List (List Val)) (s'' : CSP),
        s.add_constraint [v1, v2] (.table tt) = .ok s'' →
          s''.constraints = s.constraints ++
            [⟨(v1, v2), tt.toFinset.image (fun x => (tupleProj x 0, tupleProj x 1))⟩] ∧
          s''.domains = s.domains ∧
          s''.encoding_variables_count = s.encoding_variables_count) := by
  have hmapM : lookups s.domains [v1, v2] =
      some [d1.image Val.vi, d2.image Val.vi] := by
    simp [lookups, hd1, hd2]
  have hints : ∀ t ∈ listProd [d1.image Val.vi, d2.image Val.vi], ∀ x ∈ t, x.isInt := by
    intro t ht x hx
    have hf := mem_listProd.mp ht
    obtain ⟨d, hd, hxd⟩ := exists_mem_of_forall2_mem hf hx
    rcases List.mem_cons.mp hd with rfl | hd'
    · obtain ⟨n, _, rfl⟩ := Finset.mem_image.mp hxd
      rfl
    · rcases List.mem_cons.mp hd' with rfl | hd''
      · obtain ⟨n, _, rfl⟩ := Finset.mem_image.mp hxd
        rfl
      · simp at hd''
  refine ⟨(listProd [d1.image Val.vi, d2.image Val.vi]).filter
      (fun t => Op.comp op (wsum ws t) value), ?_, rfl, dlookup_dupdate_self _ _ _, rfl, ?_, ?_⟩
  · rw [weighted_sum_some_eq s [v1, v2] ws op value (by rw [hlen]; rfl) hmapM, if_pos hints]
  · intro c hc
    rw [show (s.add_extensional_constraint [v1, v2] _).constraints =
        s.constraints ++ [_, _] from rfl] at hc
    rw [List.drop_left] at hc
    rcases List.mem_cons.mp hc with rfl | hc'
    · constructor
      · intro h
        injection h with h1 h2
        exact hne2 h2.symm
      · intro h
        injection h with h1 h2
        exact hne1 h2.symm
    · rcases List.mem_cons.mp hc' with rfl | hc''
      · constructor
        · intro h
          injection h with h1 h2
          exact hne2 h2.symm
        · intro h
          injection h with h1 h2
          exact hne1 h2.symm
      · simp at hc''
  · intro tt s'' h
    by_cases hsub : ([v1, v2] : List String).toFinset ⊆ s.primary_variables
    · by_cases h1 : tt.all (fun x => x.length = ([v1, v2] : List String).length) = true
      · by_cases h2 : tt.all (fun x => isIntAt x 0 && isIntAt x 1) = true
        · rw [add_constraint_table_eq s [v1, v2] tt hsub h1 h2 hmapM] at h
          by_cases h3 : tt.toFinset ⊆ listProd [d1.image Val.vi, d2.image Val.vi]
          · rw [if_pos h3, if_pos (show ([v1, v2] : List String).length = 2 from rfl)] at h
            injection h with h4
            subst h4
            exact ⟨rfl, rfl, rfl⟩
          · rw [if_neg h3] at h
            cases h
        · rw [CSP.add_constraint, if_pos hsub, if_pos h1, if_neg h2] at h
          cases h
      · rw [CSP.add_constraint, if_pos hsub, if_neg h1] at h
        cases h
    · rw [CSP.add_constraint, if_neg hsub] at h
      cases h

def c9CSP : CSP := (CSP.init.add_variable "A" {1, 2, 3, 4}).add_variable "B" {1, 2, 3, 4}

/-- Witness for C9 at a concrete input: the spec's two-variable weighted-sum
example is routed through the encoding transformer. -/
theorem C9_weighted_sum_routes_through_encoding_witness :
    (([1, 1] : List Int).length = 2) ∧
    dlookup c9CSP.domains "A" = some (({1, 2, 3, 4} : Finset Int).image Val.vi) ∧
    dlookup c9CSP.domains "B" = some (({1, 2, 3, 4} : Finset Int).image Val.vi) ∧
    ("A" : String) ≠ encName (c9CSP.encoding_variables_count + 1) ∧
    ("B" : String) ≠ encName (c9CSP.encoding_variables_count + 1) ∧
    ∃ T : Finset (List Val),
      c9CSP.weighted_sum (some ["A", "B"]) (some [1, 1]) Op.eq 5 =
        .ok (c9CSP.add_extensional_constraint ["A", "B"] T) := by
  refine ⟨by decide, by decide, by decide, by decide, by decide, ?_⟩
  obtain ⟨T, hT, -⟩ := C9_weighted_sum_routes_through_encoding c9CSP "A" "B" [1, 1] Op.eq 5
    (by decide) {1, 2, 3, 4} {1, 2, 3, 4} (by decide) (by decide) (by decide) (by decide)
  exact ⟨T, hT⟩

/-! ### Claim C6: atomicity of the constraint-creation operations -/

theorem mem_pairsOf {α : Type} {l : List α} {p : α × α} (h : p ∈ pairsOf l) :
    p.1 ∈ l ∧ p.2 ∈ l := by
  induction l with
  | nil => simp [pairsOf] at h
  | cons x xs ih =>
    rw [pairsOf] at h
    rcases List.mem_append.mp h with h1 | h1
    · obtain ⟨y, hy, rfl⟩ := List.mem_map.mp h1
      exact ⟨List.mem_cons_self _ _, List.mem_cons_of_mem _ hy⟩
    · obtain ⟨h2, h3⟩ := ih h1
      exact ⟨List.mem_cons_of_mem _ h2, List.mem_cons_of_mem _ h3⟩

/-- When every pair refers to present domain keys, the `diff` loop never
raises (it only appends constraints, which leaves the domain mapping
untouched). -/
theorem diff_go_ok (ps : List (String × String)) (s : CSP)
    (h : ∀ p ∈ ps, (dlookup s.domains p.1).isSome ∧ (dlookup s.domains p.2).isSome) :
    ∃ s', s.diff_go ps = .ok s' := by
  induction ps generalizing s with
  | nil => exact ⟨s, rfl⟩
  | cons p rest ih =>
    obtain ⟨v1, v2⟩ := p
    obtain ⟨d1, hd1⟩ := Option.isSome_iff_exists.mp (h _ (List.mem_cons_self _ _)).1
    obtain ⟨d2, hd2⟩ := Option.isSome_iff_exists.mp (h _ (List.mem_cons_self _ _)).2
    have hstep : s.diff_go ((v1, v2) :: rest) =
        CSP.diff_go (s.add_binary_extensional_constraint v1 v2
          ((d1.product d2).filter (fun q => q.1 ≠ q.2))) rest := by
      rw [CSP.diff_go, hd1, hd2]
    rw [hstep]
    exact ih _ (fun q hq => h q (List.mem_cons_of_mem _ hq))

/-- Claim C6: every constraint-creation operation (`add_constraint`, `diff`,
`weighted_sum`) is atomic on failure — whenever the call raises, the CSP state
carried out of the call is exactly the state it was called with (all raises
happen before any mutation).  The hypothesis is the class invariant that every
primary variable has a domain entry (which rules out a `KeyError` in the
middle of `diff`'s loop). -/
theorem C6_constraint_ops_atomic (s : CSP)
    (hinv : ∀ v ∈ s.primary_variables, (dlookup s.domains v).isSome) :
    (∀ (vs : List String) (tt : TruthTable) (e : Err) (s' : CSP),
      s.add_constraint vs tt = .error (e, s') → s' = s) ∧
    (∀ (vs : List String) (e : Err) (s' : CSP),
      s.diff vs = .error (e, s') → s' = s) ∧
    (∀ (ovs : Option (List String)) (ows : Option (List Int)) (op : Op) (v : Int)
      (e : Err) (s' : CSP),
      s.weighted_sum ovs ows op v = .error (e, s') → s' = s) := by
  refine ⟨?_, ?_, ?_⟩
  · intro vs tt e s' h
    rw [CSP.add_constraint.eq_def] at h
    split at h
    · split at h
      · split at h
        · split at h
          · split at h
            · split at h
              · split at h
                · exact Except.noConfusion h
                · exact Except.noConfusion h
              · rw [Except.error.injEq, Prod.mk.injEq] at h
                exact h.2.symm
            · rw [Except.error.injEq, Prod.mk.injEq] at h
              exact h.2.symm
          · rw [Except.error.injEq, Prod.mk.injEq] at h
            exact h.2.symm
        · rw [Except.error.injEq, Prod.mk.injEq] at h
          exact h.2.symm
      · split at h
        · rw [CSP.add_binary_constraint_from_function.eq_def] at h
          split at h <;>
            first
              | exact Except.noConfusion h
              | (rw [Except.error.injEq, Prod.mk.injEq] at h
                 exact h.2.symm)
        · rw [CSP.add_constraint_from_function.eq_def] at h
          split at h <;>
            first
              | exact Except.noConfusion h
              | (rw [Except.error.injEq, Prod.mk.injEq] at h
                 exact h.2.symm)
    · rw [Except.error.injEq, Prod.mk.injEq] at h
      exact h.2.symm
  · intro vs e s' h
    by_cases hsub : vs.toFinset ⊆ s.primary_variables
    · rw [CSP.diff, if_pos hsub] at h
      have hps : ∀ p ∈ pairsOf vs,
          (dlookup s.domains p.1).isSome ∧ (dlookup s.domains p.2).isSome := by
        intro p hp
        obtain ⟨hp1, hp2⟩ := mem_pairsOf hp
        exact ⟨hinv _ (hsub (List.mem_toFinset.mpr hp1)),
               hinv _ (hsub (List.mem_toFinset.mpr hp2))⟩
      obtain ⟨s'', hok⟩ := diff_go_ok (pairsOf vs) s hps
      rw [hok] at h
      exact Except.noConfusion h
    · rw [CSP.diff, if_neg hsub] at h
      rw [Except.error.injEq, Prod.mk.injEq] at h
      exact h.2.symm
  · intro ovs ows op v e s' h
    rw [CSP.weighted_sum.eq_def] at h
    split at h
    · split at h
      · split at h
        · exact Except.noConfusion h
        · rw [Except.error.injEq, Prod.mk.injEq] at h
          exact h.2.symm
      · rw [Except.error.injEq, Prod.mk.injEq] at h
        exact h.2.symm
    · rw [Except.error.injEq, Prod.mk.injEq] at h
      exact h.2.symm

/-- Witness for C6 at a concrete input: a CSP with one declared variable
satisfies the invariant; an `add_constraint` on an undeclared variable fails
with `UnknownVariable` and the carried state equals the original state. -/
theorem C6_constraint_ops_atomic_witness :
    (∀ v ∈ (CSP.init.add_variable "a" {1}).primary_variables,
      (dlookup (CSP.init.add_variable "a" {1}).domains v).isSome) ∧
    ∃ e s', (CSP.init.add_variable "a" {1}).add_constraint ["z", "a"] (.table []) =
      .error (e, s') ∧ s' = CSP.init.add_variable "a" {1} := by
  refine ⟨by decide, .unknownVariable, CSP.init.add_variable "a" {1}, by decide, ?_⟩
  exact (C6_constraint_ops_atomic (CSP.init.add_variable "a" {1}) (by decide)).1
    ["z", "a"] (.table []) .unknownVariable (CSP.init.add_variable "a" {1}) (by decide)

/-! ### Claim C8: the tuple set materialized by `weighted_sum` -/

/-- Every tuple enumerated from integer domains consists of integers. -/
theorem listProd_int_domains (dsInt : List (Finset Int)) :
    ∀ t ∈ listProd (dsInt.map (fun d => d.image Val.vi)), ∀ x ∈ t, x.isInt := by
  intro t ht x hx
  obtain ⟨d, hd, hxd⟩ := exists_mem_of_forall2_mem (mem_listProd.mp ht) hx
  obtain ⟨dI, hdI, rfl⟩ := List.mem_map.mp hd
  obtain ⟨n, -, rfl⟩ := Finset.mem_image.mp hxd
  rfl

/-- The weighted sum `Σ weights[i] * t[i]` over an integer tuple, as the
claim states it. -/
def intWeightedSum (ws l : List Int) : Int :=
  ((List.range ws.length).map (fun i => ws.getD i 0 * l.getD i 0)).sum

theorem tupleProj_map_vi (l : List Int) (i : Nat) :
    (tupleProj (l.map Val.vi) i).toIntD = l.getD i 0 := by
  rw [tupleProj, List.getD_eq_getD_get?, List.getD_eq_getD_get?, List.get?_eq_getElem?,
    List.get?_eq_getElem?, List.getElem?_map]
  cases h : l[i]? with
  | none => rfl
  | some n => rfl

theorem wsum_map_vi (ws : List Int) (l : List Int) :
    wsum ws (l.map Val.vi) = intWeightedSum ws l := by
  rw [wsum, intWeightedSum]
  congr 1
  apply List.map_congr_left
  intro i _
  rw [tupleProj_map_vi]

/-- Claim C8: for every `weighted_sum` call with equal-length variables and
weights over integer domains, the materialized tuple set is exactly the subset
of the cartesian product of the domains whose weighted sum compares as
requested: an integer tuple `l` is kept iff it lies in the product and
`Σ ws[i] * l[i] OP value` holds — and only integer tuples are kept. -/
theorem C8_weighted_sum_tuples (s : CSP) (vs : List String) (ws : List Int) (op : Op)
    (value : Int) (hlen : vs.length = ws.length)
    (dsInt : List (Finset Int))
    (hds : lookups s.domains vs = some (dsInt.map (fun d => d.image Val.vi))) :
    ∃ T : Finset (List Val),
      s.weighted_sum (some vs) (some ws) op value = .ok (s.add_extensional_constraint vs T) ∧
      (∀ l : List Int,
        l.map Val.vi ∈ T ↔
          (List.Forall₂ (fun a d => a ∈ d) l dsInt ∧
           Op.comp op (intWeightedSum ws l) value)) ∧
      (∀ t ∈ T, ∃ l : List Int, t = l.map Val.vi) := by
  refine ⟨(listProd (dsInt.map (fun d => d.image Val.vi))).filter
      (fun t => Op.comp op (wsum ws t) value), ?_, ?_, ?_⟩
  · rw [weighted_sum_some_eq s vs ws op value hlen hds,
      if_pos (listProd_int_domains dsInt)]
  · intro l
    rw [Finset.mem_filter, mem_listProd, wsum_map_vi]
    constructor
    · rintro ⟨hmem, hcomp⟩
      refine ⟨?_, hcomp⟩
      have := List.forall₂_map_left_iff.mp hmem
      have h2 := List.forall₂_map_right_iff.mp this
      refine h2.imp ?_
      intro a d hd
      obtain ⟨n, hn, he⟩ := Finset.mem_image.mp hd
      injection he with he'
      exact he' ▸ hn
    · rintro ⟨hmem, hcomp⟩
      refine ⟨?_, hcomp⟩
      rw [List.forall₂_map_left_iff, List.forall₂_map_right_iff]
      refine hmem.imp ?_
      intro a d hd
      exact Finset.mem_image.mpr ⟨a, hd, rfl⟩
  · intro t ht
    have hint := listProd_int_domains dsInt t (Finset.mem_filter.mp ht).1
    clear ht
    induction t with
    | nil => exact ⟨[], rfl⟩
    | cons x rest ih =>
      obtain ⟨l, hl⟩ := ih (fun y hy => hint y (List.mem_cons_of_mem _ hy))
      have hx := hint x (List.mem_cons_self _ _)
      cases x with
      | vi n => exact ⟨n :: l, by rw [List.map_cons, hl]⟩
      | vt a => simp [Val.isInt] at hx
      | vo a => simp [Val.isInt] at hx

def c8CSP : CSP := (CSP.init.add_variable "A" {1, 2, 3, 4}).add_variable "B" {1, 2, 3, 4}

/-- Witness for C8 at the spec's concrete example: domains `{1,2,3,4}`,
weights `[1,1]`, operator `=` and target `5` accept `(1,4)` and reject
`(1,1)`. -/
theorem C8_weighted_sum_tuples_witness :
    ((["A", "B"] : List String).length = ([1, 1] : List Int).length) ∧
    lookups c8CSP.domains ["A", "B"] =
      some (([({1, 2, 3, 4} : Finset Int), {1, 2, 3, 4}]).map (fun d => d.image Val.vi)) ∧
    ∃ T : Finset (List Val),
      c8CSP.weighted_sum (some ["A", "B"]) (some [1, 1]) Op.eq 5 =
        .ok (c8CSP.add_extensional_constraint ["A", "B"] T) ∧
      ([1, 4] : List Int).map Val.vi ∈ T ∧
      ¬ (([1, 1] : List Int).map Val.vi ∈ T) := by
  refine ⟨by decide, by decide, ?_⟩
  obtain ⟨T, hok, hiff, -⟩ := C8_weighted_sum_tuples c8CSP ["A", "B"] [1, 1] Op.eq 5
    (by decide) [{1, 2, 3, 4}, {1, 2, 3, 4}] (by decide)
  refine ⟨T, hok, ?_, ?_⟩
  · refine (hiff [1, 4]).mpr ⟨?_, by decide⟩
    exact List.forall₂_cons.mpr ⟨by decide, List.forall₂_cons.mpr ⟨by decide, List.Forall₂.nil⟩⟩
  · intro hmem
    exact absurd ((hiff [1, 1]).mp hmem).2 (by decide)

/-! ### Claim C7: functional and extensional construction agree -/

theorem lookups_cons_inv {m : List (String × Finset Val)} {v : String} {rest : List String}
    {ds : List (Finset Val)} (h : lookups m (v :: rest) = some ds) :
    ∃ d ds', dlookup m v = some d ∧ lookups m rest = some ds' ∧ ds = d :: ds' := by
  rw [lookups] at h
  rcases hl : dlookup m v with - | d <;> rcases hr : lookups m rest with - | ds' <;>
    rw [hl, hr] at h
  · exact Option.noConfusion h
  · exact Option.noConfusion h
  · exact Option.noConfusion h
  · injection h with h'
    exact ⟨d, ds', rfl, rfl, h'.symm⟩

theorem lookups_length {m : List (String × Finset Val)} :
    ∀ {vs : List String} {ds : List (Finset Val)},
      lookups m vs = some ds → ds.length = vs.length := by
  intro vs
  induction vs with
  | nil =>
    intro ds h
    rw [lookups] at h
    injection h with h'
    rw [← h']
    rfl
  | cons v rest ih =>
    intro ds h
    obtain ⟨d, ds', h1, h2, rfl⟩ := lookups_cons_inv h
    rw [List.length_cons, List.length_cons, ih h2]

theorem isIntAt_of_all (t : List Val) (i : Nat) (hi : i < t.length)
    (h : ∀ x ∈ t, x.isInt) : isIntAt t i := by
  rw [isIntAt]
  cases hg : t.get? i with
  | none =>
    rw [List.get?_eq_none] at hg
    exact absurd hi (not_lt_of_le hg)
  | some v => exact h v (List.get?_mem hg)

theorem mem_product' {α β : Type} {s : Finset α} {t : Finset β} {p : α × β} :
    p ∈ s.product t ↔ p.1 ∈ s ∧ p.2 ∈ t := Finset.mem_product

theorem add_binary_constraint_from_function_eq (s : CSP) (v1 v2 : String)
    (f : List Val → Bool) {d1 d2 : Finset Val}
    (h1 : dlookup s.domains v1 = some d1) (h2 : dlookup s.domains v2 = some d2) :
    s.add_binary_constraint_from_function v1 v2 f =
      .ok (s.add_binary_extensional_constraint v1 v2
        ((d1.product d2).filter (fun p => f [p.1, p.2]))) := by
  rw [CSP.add_binary_constraint_from_function.eq_def, h1, h2]

theorem add_constraint_from_function_eq (s : CSP) (vs : List String)
    (f : List Val → Bool) {ds : List (Finset Val)}
    (hds : lookups s.domains vs = some ds) :
    s.add_constraint_from_function vs f =
      .ok (s.add_extensional_constraint vs ((listProd ds).filter (fun t => f t))) := by
  rw [CSP.add_constraint_from_function.eq_def, hds]

/-- Claim C7: over declared variables with integer domains, adding a
constraint from a predicate and adding it extensionally from the explicit
collection of product tuples satisfying that predicate produce identical
results — the same resulting CSP, hence the same Constraint objects (same
variable pairs, same valid-pair sets and, for arity other than 2, the same
encoding-variable domain). -/
theorem C7_functional_extensional_agree (s : CSP) (vs : List String) (f : List Val → Bool)
    (dsInt : List (Finset Int))
    (hds : lookups s.domains vs = some (dsInt.map (fun d => d.image Val.vi)))
    (hsub : vs.toFinset ⊆ s.primary_variables)
    (hN : 2 ≤ vs.length)
    (tl : List (List Val))
    (htl : tl.toFinset =
      (listProd (dsInt.map (fun d => d.image Val.vi))).filter (fun t => f t)) :
    s.add_constraint vs (.func f) = s.add_constraint vs (.table tl) := by
  have hlen : (dsInt.map (fun d => d.image Val.vi)).length = vs.length := lookups_length hds
  have hmemtl : ∀ x ∈ tl, x ∈ listProd (dsInt.map (fun d => d.image Val.vi)) ∧ f x := by
    intro x hx
    have hx' : x ∈ tl.toFinset := List.mem_toFinset.mpr hx
    rw [htl] at hx'
    exact ⟨(Finset.mem_filter.mp hx').1, (Finset.mem_filter.mp hx').2⟩
  have h1 : tl.all (fun x => x.length = vs.length) = true := by
    rw [List.all_eq_true]
    intro x hx
    have := length_eq_of_mem_listProd (hmemtl x hx).1
    rw [hlen] at this
    exact decide_eq_true this
  have h2 : tl.all (fun x => isIntAt x 0 && isIntAt x 1) = true := by
    rw [List.all_eq_true]
    intro x hx
    have hxlen : x.length = vs.length := by
      have := length_eq_of_mem_listProd (hmemtl x hx).1
      rw [hlen] at this
      exact this
    have hxint : ∀ y ∈ x, y.isInt :=
      listProd_int_domains dsInt x (hmemtl x hx).1
    rw [Bool.and_eq_true]
    exact ⟨isIntAt_of_all x 0 (by omega) hxint, isIntAt_of_all x 1 (by omega) hxint⟩
  have h3 : tl.toFinset ⊆ listProd (dsInt.map (fun d => d.image Val.vi)) := by
    rw [htl]
    exact Finset.filter_subset _ _
  rw [add_constraint_table_eq s vs tl hsub h1 h2 hds, if_pos h3]
  by_cases hN2 : vs.length = 2
  · rw [if_pos hN2, CSP.add_constraint, if_pos hsub, if_pos hN2]
    obtain ⟨v1, v2, rfl⟩ := List.length_eq_two.mp hN2
    have hdsIntLen : dsInt.length = 2 := by
      rw [← List.length_map dsInt (fun d => d.image Val.vi), hlen]
      rfl
    obtain ⟨dA, dB, rfl⟩ := List.length_eq_two.mp hdsIntLen
    simp only [List.map_cons, List.map_nil] at hds htl
    obtain ⟨d1, ds', hl1, hrest, heq⟩ := lookups_cons_inv hds
    obtain ⟨d2, ds'', hl2, hrest2, heq2⟩ := lookups_cons_inv hrest
    rw [lookups] at hrest2
    injection hrest2 with hrest2'
    subst hrest2'
    subst heq2
    injection heq with he1 he2
    injection he2 with he2 he3
    subst he1
    subst he2
    show s.add_binary_constraint_from_function v1 v2 f =
      Except.ok (s.add_binary_extensional_constraint v1 v2
        (tl.toFinset.image (fun x => (tupleProj x 0, tupleProj x 1))))
    have hsets : ((dA.image Val.vi).product (dB.image Val.vi)).filter
          (fun p => f [p.1, p.2]) =
        tl.toFinset.image (fun x => (tupleProj x 0, tupleProj x 1)) := by
      rw [htl]
      ext p
      constructor
      · intro hp
        obtain ⟨hpp, hf⟩ := Finset.mem_filter.mp hp
        obtain ⟨hpa, hpb⟩ := mem_product'.mp hpp
        refine Finset.mem_image.mpr ⟨[p.1, p.2],
          Finset.mem_filter.mpr ⟨mem_listProd.mpr ?_, hf⟩, rfl⟩
        exact List.Forall₂.cons hpa (List.Forall₂.cons hpb List.Forall₂.nil)
      · intro hp
        obtain ⟨x, hx, rfl⟩ := Finset.mem_image.mp hp
        obtain ⟨hfa, hf⟩ := Finset.mem_filter.mp hx
        have hfa' := mem_listProd.mp hfa
        cases hfa' with
        | cons hpa hrest' =>
          cases hrest' with
          | cons hpb hnil =>
            cases hnil
            exact Finset.mem_filter.mpr ⟨mem_product'.mpr ⟨hpa, hpb⟩, hf⟩
    rw [add_binary_constraint_from_function_eq s v1 v2 f hl1 hl2, hsets]
  · rw [if_neg hN2, CSP.add_constraint, if_pos hsub, if_neg hN2,
      add_constraint_from_function_eq s vs f hds, htl]

def c7CSP : CSP := (CSP.init.add_variable "A" {0, 1}).add_variable "B" {0, 1}

/-- Witness for C7 at a concrete input: the predicate "first value is 0" over
two variables with domains `{0, 1}`, and the explicit list of the two product
tuples satisfying it. -/
theorem C7_functional_extensional_agree_witness :
    lookups c7CSP.domains ["A", "B"] =
      some (([({0, 1} : Finset Int), {0, 1}]).map (fun d => d.image Val.vi)) ∧
    ((["A", "B"] : List String).toFinset ⊆ c7CSP.primary_variables) ∧
    (2 ≤ (["A", "B"] : List String).length) ∧
    ([[Val.vi 0, Val.vi 0], [Val.vi 0, Val.vi 1]] : List (List Val)).toFinset =
      (listProd (([({0, 1} : Finset Int), {0, 1}]).map (fun d => d.image Val.vi))).filter
        (fun t => decide (tupleProj t 0 = Val.vi 0)) ∧
    c7CSP.add_constraint ["A", "B"] (.func (fun t => decide (tupleProj t 0 = Val.vi 0))) =
      c7CSP.add_constraint ["A", "B"]
        (.table [[Val.vi 0, Val.vi 0], [Val.vi 0, Val.vi 1]]) :=
  ⟨by decide, by decide, by decide, by decide,
   C7_functional_extensional_agree c7CSP ["A", "B"]
     (fun t => decide (tupleProj t 0 = Val.vi 0)) [{0, 1}, {0, 1}]
     (by decide) (by decide) (by decide)
     [[Val.vi 0, Val.vi 0], [Val.vi 0, Val.vi 1]] (by decide)⟩

/-! ### Claim C4: encoding-variable names -/

/-- Big-endian decimal character form of a natural number (what
`Nat.toDigitsCore` computes with enough fuel). -/
def repChars (n : Nat) : List Char :=
  if h : n / 10 = 0 then [Nat.digitChar n]
  else repChars (n / 10) ++ [Nat.digitChar (n % 10)]
termination_by n
decreasing_by
  exact Nat.div_lt_self (Nat.pos_of_ne_zero (fun hz => h (by rw [hz]))) (by omega)

theorem toDigitsCore_eq_repChars :
    ∀ (fuel n : Nat) (acc : List Char), n < fuel →
      Nat.toDigitsCore 10 fuel n acc = repChars n ++ acc := by
  intro fuel
  induction fuel with
  | zero => intro n acc h; exact absurd h (Nat.not_lt_zero n)
  | succ fuel ih =>
    intro n acc h
    rw [Nat.toDigitsCore, repChars]
    by_cases h0 : n / 10 = 0
    · rw [if_pos h0, dif_pos h0]
      have hn : n % 10 = n := Nat.mod_eq_of_lt (by omega)
      rw [hn]
      rfl
    · rw [if_neg h0, dif_neg h0]
      have hlt : n / 10 < fuel := by
        have h1 : n / 10 < n := Nat.div_lt_self (Nat.pos_of_ne_zero (fun hz => h0 (by rw [hz]))) (by omega)
        omega
      rw [ih (n / 10) (Nat.digitChar (n % 10) :: acc) hlt, List.append_assoc]
      rfl

theorem repr_eq_repChars (n : Nat) : Nat.repr n = (repChars n).asString := by
  rw [Nat.repr, Nat.toDigits, toDigitsCore_eq_repChars (n + 1) n [] (Nat.lt_succ_self n),
    List.append_nil]

/-- Left inverse of `Nat.digitChar` on decimal digits. -/
def digitVal (c : Char) : Nat :=
  if c = '0' then 0 else if c = '1' then 1 else if c = '2' then 2 else if c = '3' then 3
  else if c = '4' then 4 else if c = '5' then 5 else if c = '6' then 6 else if c = '7' then 7
  else if c = '8' then 8 else if c = '9' then 9 else 10

theorem digitVal_digitChar : ∀ d : Nat, d < 10 → digitVal (Nat.digitChar d) = d := by
  decide

/-- The number denoted by a big-endian decimal character list. -/
def charsVal (l : List Char) : Nat := l.foldl (fun acc c => acc * 10 + digitVal c) 0

theorem charsVal_repChars (n : Nat) : charsVal (repChars n) = n := by
  induction n using Nat.strong_induction_on with
  | _ n ih =>
    rw [repChars]
    by_cases h0 : n / 10 = 0
    · rw [dif_pos h0]
      have hn : n < 10 := by omega
      show (0 * 10 + digitVal (Nat.digitChar n)) = n
      rw [digitVal_digitChar n hn]
      omega
    · rw [dif_neg h0]
      have hlt : n / 10 < n :=
        Nat.div_lt_self (Nat.pos_of_ne_zero (fun hz => h0 (by rw [hz]))) (by omega)
      have ihn := ih (n / 10) hlt
      rw [charsVal, List.foldl_append]
      show (charsVal (repChars (n / 10))) * 10 + digitVal (Nat.digitChar (n % 10)) = n
      rw [ihn, digitVal_digitChar (n % 10) (Nat.mod_lt n (by omega))]
      omega

theorem repChars_injective {a b : Nat} (h : repChars a = repChars b) : a = b := by
  rw [← charsVal_repChars a, ← charsVal_repChars b, h]

theorem nat_repr_injective {a b : Nat} (h : Nat.repr a = Nat.repr b) : a = b := by
  rw [repr_eq_repChars, repr_eq_repChars] at h
  exact repChars_injective (congrArg String.data h)

theorem encName_data (n : Nat) : (encName n).data = 'X' :: (Nat.repr n).data := rfl

theorem encName_injective {a b : Nat} (h : encName a = encName b) : a = b := by
  have hd := congrArg String.data h
  rw [encName_data, encName_data] at hd
  injection hd with h1 h2
  exact nat_repr_injective (congrArg String.mk h2)

/-- The class invariant maintained by the public API: domain keys are unique
(a dict), every primary variable has a domain entry, and every domain key is
either primary or one of the minted encoding names `X1 … Xcount`. -/
def goodState (s : CSP) : Prop :=
  (dkeys s.domains).Nodup ∧
  (∀ v ∈ s.primary_variables, v ∈ dkeys s.domains) ∧
  (∀ v ∈ dkeys s.domains,
    v ∈ s.primary_variables ∨ ∃ k, 1 ≤ k ∧ k ≤ s.encoding_variables_count ∧ v = encName k)

theorem goodState_of_fields {s s' : CSP} (h1 : s'.domains = s.domains)
    (h2 : s'.primary_variables = s.primary_variables)
    (h3 : s'.encoding_variables_count = s.encoding_variables_count)
    (h : goodState s) : goodState s' := by
  rw [goodState, h1, h2, h3]
  exact h

theorem goodState_add_variable (s : CSP) (h : goodState s) (n : String) (d : Finset Int) :
    goodState (s.add_variable n d) := by
  obtain ⟨hnd, hprim, hcls⟩ := h
  refine ⟨nodup_keys_dupdate _ _ hnd, ?_, ?_⟩
  · intro v hv
    rcases Finset.mem_insert.mp hv with rfl | hv'
    · exact (mem_keys_dupdate _ _ _ _).mpr (Or.inr rfl)
    · exact (mem_keys_dupdate _ _ _ _).mpr (Or.inl (hprim v hv'))
  · intro v hv
    rcases (mem_keys_dupdate _ _ _ _).mp hv with hv' | rfl
    · rcases hcls v hv' with h1 | h1
      · exact Or.inl (Finset.mem_insert_of_mem h1)
      · exact Or.inr h1
    · exact Or.inl (Finset.mem_insert_self _ _)

theorem goodState_add_extensional (s : CSP) (vsl : List String) (T : Finset (List Val))
    (h : goodState s) : goodState (s.add_extensional_constraint vsl T) := by
  obtain ⟨hnd, hprim, hcls⟩ := h
  refine ⟨nodup_keys_dupdate _ _ hnd, ?_, ?_⟩
  · intro v hv
    exact (mem_keys_dupdate _ _ _ _).mpr (Or.inl (hprim v hv))
  · intro v hv
    rcases (mem_keys_dupdate _ _ _ _).mp hv with hv' | rfl
    · rcases hcls v hv' with h1 | ⟨k, hk1, hk2, hk3⟩
      · exact Or.inl h1
      · exact Or.inr ⟨k, hk1, Nat.le_succ_of_le hk2, hk3⟩
    · exact Or.inr ⟨s.encoding_variables_count + 1, by omega, le_refl _, rfl⟩

theorem add_constraint_ok_cases {s s' : CSP} {vsl : List String} {tt : TruthTable}
    (h : s.add_constraint vsl tt = .ok s') :
    (∃ v1 v2 ts, s' = s.add_binary_extensional_constraint v1 v2 ts) ∨
    (∃ vl T, s' = s.add_extensional_constraint vl T) := by
  rw [CSP.add_constraint.eq_def] at h
  split at h
  · split at h
    · split at h
      · split at h
        · split at h
          · split at h
            · split at h
              · injection h with h'
                exact Or.inl ⟨_, _, _, h'.symm⟩
              · injection h with h'
                exact Or.inr ⟨_, _, h'.symm⟩
            · exact Except.noConfusion h
          · exact Except.noConfusion h
        · exact Except.noConfusion h
      · exact Except.noConfusion h
    · split at h
      · rw [CSP.add_binary_constraint_from_function.eq_def] at h
        split at h
        · injection h with h'
          exact Or.inl ⟨_, _, _, h'.symm⟩
        · exact Except.noConfusion h
      · rw [CSP.add_constraint_from_function.eq_def] at h
        split at h
        · injection h with h'
          exact Or.inr ⟨_, _, h'.symm⟩
        · exact Except.noConfusion h
  · exact Except.noConfusion h

theorem weighted_sum_ok_cases {s s' : CSP} {ovs : Option (List String)}
    {ows : Option (List Int)} {op : Op} {v : Int}
    (h : s.weighted_sum ovs ows op v = .ok s') :
    ∃ vl T, s' = s.add_extensional_constraint vl T := by
  rw [CSP.weighted_sum.eq_def] at h
  split at h
  · split at h
    · split at h
      · injection h with h'
        exact ⟨_, _, h'.symm⟩
      · exact Except.noConfusion h
    · exact Except.noConfusion h
  · exact Except.noConfusion h

theorem diff_go_fields (ps : List (String × String)) :
    ∀ (s s' : CSP), s.diff_go ps = .ok s' →
      s'.domains = s.domains ∧ s'.primary_variables = s.primary_variables ∧
      s'.encoding_variables_count = s.encoding_variables_count := by
  induction ps with
  | nil =>
    intro s s' h
    rw [CSP.diff_go] at h
    injection h with h'
    subst h'
    exact ⟨rfl, rfl, rfl⟩
  | cons p rest ih =>
    intro s s' h
    obtain ⟨v1, v2⟩ := p
    rw [CSP.diff_go] at h
    split at h
    · obtain ⟨h1, h2, h3⟩ := ih _ _ h
      exact ⟨h1, h2, h3⟩
    · exact Except.noConfusion h

theorem diff_fields {s s' : CSP} {vsl : List String} (h : s.diff vsl = .ok s') :
    s'.domains = s.domains ∧ s'.primary_variables = s.primary_variables ∧
      s'.encoding_variables_count = s.encoding_variables_count := by
  rw [CSP.diff] at h
  split at h
  · exact diff_go_fields _ _ _ h
  · exact Except.noConfusion h

theorem goodState_reachable {s : CSP} (h : Reachable s) : goodState s := by
  induction h with
  | init =>
    refine ⟨List.nodup_nil, ?_, ?_⟩ <;> intro v hv <;> simp [CSP.init, dkeys] at hv
  | add_var hr ih => exact goodState_add_variable _ ih _ _
  | add_cons hr hok ih =>
    rcases add_constraint_ok_cases hok with ⟨v1, v2, ts, rfl⟩ | ⟨vl, T, rfl⟩
    · exact ih
    · exact goodState_add_extensional _ _ _ ih
  | diff_ok hr hok ih =>
    obtain ⟨h1, h2, h3⟩ := diff_fields hok
    exact goodState_of_fields h1 h2 h3 ih
  | all_diff_ok hr hok ih =>
    rw [CSP.all_diff] at hok
    obtain ⟨h1, h2, h3⟩ := diff_fields hok
    exact goodState_of_fields h1 h2 h3 ih
  | ws_ok hr hok ih =>
    obtain ⟨vl, T, rfl⟩ := weighted_sum_ok_cases hok
    exact goodState_add_extensional _ _ _ ih

def c4CSP : CSP :=
  (((CSP.init.add_variable "X1" {1, 2}).add_variable "a" {1}).add_variable
    "b" {1}).add_variable "c" {1}

/-- Counterexample to claim C4: a primary variable may itself be named `"X1"`;
the next n-ary constraint then mints the encoding name `"X1"` and rebinds the
primary variable's domain (from `{1, 2}` to the tuple set), so the generated
names are not disjoint from the primary names. -/
theorem C4_counterexample :
    "X1" ∈ c4CSP.primary_variables ∧
    dlookup c4CSP.domains "X1" = some ({Val.vi 1, Val.vi 2} : Finset Val) ∧
    (c4CSP.add_constraint ["a", "b", "c"]
      (.table [[Val.vi 1, Val.vi 1, Val.vi 1]])).ok? = true ∧
    dlookup (c4CSP.add_constraint ["a", "b", "c"]
        (.table [[Val.vi 1, Val.vi 1, Val.vi 1]])).state.domains "X1" =
      some ({Val.vt [Val.vi 1, Val.vi 1, Val.vi 1]} : Finset Val) ∧
    "X1" ∈ (c4CSP.add_constraint ["a", "b", "c"]
      (.table [[Val.vi 1, Val.vi 1, Val.vi 1]])).state.primary_variables := by
  decide

/-- Claim C4, amended: the generated encoding names `X1, X2, …` are pairwise
distinct; and provided no primary variable is declared under a name of the
form `X⟨k⟩` (`k ≥ 1`), every non-primary key of the domain mapping of a
reachable state is one of the minted encoding names, and adding an n-ary
constraint never rebinds the domain of a primary variable.  Without that
proviso the disjointness fails (see the counterexample). -/
theorem C4_encoding_names (s : CSP) (hr : Reachable s)
    (hp : ∀ k : Nat, 1 ≤ k → encName k ∉ s.primary_variables) :
    (∀ j k : Nat, encName j = encName k → j = k) ∧
    (∀ v ∈ dkeys s.domains, v ∉ s.primary_variables →
      ∃ k, 1 ≤ k ∧ k ≤ s.encoding_variables_count ∧ v = encName k) ∧
    (∀ (vsl : List String) (T : Finset (List Val)) (v : String),
      v ∈ s.primary_variables →
      dlookup (s.add_extensional_constraint vsl T).domains v = dlookup s.domains v) := by
  refine ⟨fun j k h => encName_injective h, ?_, ?_⟩
  · intro v hv hnp
    rcases (goodState_reachable hr).2.2 v hv with h1 | h1
    · exact absurd h1 hnp
    · exact h1
  · intro vsl T v hv
    apply dlookup_dupdate_ne
    intro he
    exact hp (s.encoding_variables_count + 1) (by omega) (he ▸ hv)

/-- Witness for the amended C4 at a concrete input: the one-variable CSP
`{"a"}` is reachable and has no primary name of the form `X⟨k⟩`. -/
theorem C4_encoding_names_witness :
    (∀ k : Nat, 1 ≤ k → encName k ∉ (CSP.init.add_variable "a" {1}).primary_variables) ∧
    (∀ v ∈ dkeys (CSP.init.add_variable "a" {1}).domains,
      v ∉ (CSP.init.add_variable "a" {1}).primary_variables →
      ∃ k, 1 ≤ k ∧ k ≤ (CSP.init.add_variable "a" {1}).encoding_variables_count ∧
        v = encName k) := by
  have hp : ∀ k : Nat, 1 ≤ k →
      encName k ∉ (CSP.init.add_variable "a" {1}).primary_variables := by
    intro k hk hmem
    have hEq : encName k = "a" := by
      have : encName k ∈ ({"a"} : Finset String) := hmem
      exact Finset.mem_singleton.mp this
    have hd := congrArg String.data hEq
    rw [encName_data] at hd
    injection hd with h1 h2
    exact absurd h1 (by decide)
  exact ⟨hp, (C4_encoding_names (CSP.init.add_variable "a" {1})
    (Reachable.add_var Reachable.init) hp).2.1⟩

/-! ### Claim C2: the backtracking search returns a satisfying assignment -/

theorem btFold_some (cs : List Constraint) (doms : List (String × Finset Val))
    (vord : String → Finset Val → List Val) (v : String) (rest : List String)
    (a r : List (String × Val)) :
    ∀ vals : List Val,
      vals.foldr (fun x next =>
        if consistentB cs ((v, x) :: a) then
          match bt cs doms vord rest ((v, x) :: a) with
          | some r => some r
          | none => next
        else next) none = some r →
      ∃ x ∈ vals, consistentB cs ((v, x) :: a) = true ∧
        bt cs doms vord rest ((v, x) :: a) = some r := by
  intro vals
  induction vals with
  | nil => intro h; exact Option.noConfusion h
  | cons x xs ih =>
    intro h
    rw [List.foldr_cons] at h
    by_cases hc : consistentB cs ((v, x) :: a) = true
    · rw [if_pos hc] at h
      rcases hbt : bt cs doms vord rest ((v, x) :: a) with - | r' <;> rw [hbt] at h
      · obtain ⟨y, hy, h1, h2⟩ := ih h
        exact ⟨y, List.mem_cons_of_mem _ hy, h1, h2⟩
      · injection h with h'
        exact ⟨x, List.mem_cons_self _ _, hc, by rw [hbt, h']⟩
    · rw [if_neg hc] at h
      obtain ⟨y, hy, h1, h2⟩ := ih h
      exact ⟨y, List.mem_cons_of_mem _ hy, h1, h2⟩

theorem btFold_ne_none (cs : List Constraint) (doms : List (String × Finset Val))
    (vord : String → Finset Val → List Val) (v : String) (rest : List String)
    (a : List (String × Val)) :
    ∀ vals : List Val,
      (∃ x ∈ vals, consistentB cs ((v, x) :: a) = true ∧
        bt cs doms vord rest ((v, x) :: a) ≠ none) →
      vals.foldr (fun x next =>
        if consistentB cs ((v, x) :: a) then
          match bt cs doms vord rest ((v, x) :: a) with
          | some r => some r
          | none => next
        else next) none ≠ none := by
  intro vals
  induction vals with
  | nil => rintro ⟨x, hx, -, -⟩; simp at hx
  | cons y ys ih =>
    rintro ⟨x, hx, h1, h2⟩
    rw [List.foldr_cons]
    by_cases hc : consistentB cs ((v, y) :: a) = true
    · rw [if_pos hc]
      rcases hbt : bt cs doms vord rest ((v, y) :: a) with - | r'
      · rcases List.mem_cons.mp hx with rfl | hx'
        · exact absurd hbt h2
        · exact ih ⟨x, hx', h1, h2⟩
      · exact Option.noConfusion
    · rw [if_neg hc]
      rcases List.mem_cons.mp hx with rfl | hx'
      · exact absurd h1 hc
      · exact ih ⟨x, hx', h1, h2⟩

theorem bt_sound (cs : List Constraint) (doms : List (String × Finset Val))
    (vord : String → Finset Val → List Val) :
    ∀ (order : List String) (a r : List (String × Val)),
      bt cs doms vord order a = some r →
      ∃ ext, r = ext ++ a ∧ ext.map Prod.fst = order.reverse ∧
        (∀ p ∈ ext, p.2 ∈ vord p.1 ((dlookup doms p.1).getD ∅)) ∧
        (consistentB cs a = true → consistentB cs r = true) := by
  intro order
  induction order with
  | nil =>
    intro a r h
    rw [bt] at h
    injection h with h'
    refine ⟨[], h'.symm ▸ rfl, rfl, ?_, ?_⟩
    · intro p hp
      simp at hp
    · intro hc
      rw [← h']
      exact hc
  | cons v rest ih =>
    intro a r h
    rw [bt] at h
    obtain ⟨x, hx, hc, hbt⟩ := btFold_some cs doms vord v rest a r _ h
    obtain ⟨ext', rfl, hkeys, hvals, hcons⟩ := ih ((v, x) :: a) r hbt
    refine ⟨ext' ++ [(v, x)], ?_, ?_, ?_, ?_⟩
    · rw [List.append_assoc]
      rfl
    · rw [List.map_append, hkeys, List.reverse_cons]
      rfl
    · intro p hp
      rcases List.mem_append.mp hp with hp' | hp'
      · exact hvals p hp'
      · rcases List.mem_singleton.mp hp' with rfl
        exact hx
    · intro _
      exact hcons hc

theorem dlookup_append {α : Type} (l1 l2 : List (String × α)) (k : String) :
    dlookup (l1 ++ l2) k =
      match dlookup l1 k with
      | some v => some v
      | none => dlookup l2 k := by
  induction l1 with
  | nil => rfl
  | cons p rest ih =>
    obtain ⟨k0, v0⟩ := p
    rw [List.cons_append, dlookup_cons, dlookup_cons]
    by_cases h0 : k0 = k
    · rw [if_pos h0, if_pos h0]
    · rw [if_neg h0, if_neg h0, ih]

theorem consistentB_nil (cs : List Constraint) : consistentB cs [] = true := by
  rw [consistentB, List.all_eq_true]
  intro c _
  rfl

theorem consistentB_mono {cs : List Constraint} {L L' : List (String × Val)}
    (hsub : ∀ u x, dlookup L' u = some x → dlookup L u = some x)
    (h : consistentB cs L = true) : consistentB cs L' = true := by
  rw [consistentB, List.all_eq_true] at h ⊢
  intro c hc
  have hcL := h c hc
  rcases hl1 : dlookup L' c.vars.1 with - | x <;>
    rcases hl2 : dlookup L' c.vars.2 with - | y <;> try rfl
  rw [hsub _ _ hl1, hsub _ _ hl2] at hcL
  exact hcL

/-- Extend a partial assignment by the values of `f` on `order` (proof
device for the completeness argument). -/
def assignAll : List String → (String → Val) → List (String × Val) → List (String × Val)
  | [], _, a => a
  | v :: rest, f, a => assignAll rest f ((v, f v) :: a)

theorem dlookup_assignAll (f : String → Val) :
    ∀ (order : List String) (a : List (String × Val)) (u : String),
      dlookup (assignAll order f a) u =
        if u ∈ order then some (f u) else dlookup a u := by
  intro order
  induction order with
  | nil =>
    intro a u
    rw [assignAll, if_neg (List.not_mem_nil u)]
  | cons v rest ih =>
    intro a u
    rw [assignAll, ih]
    by_cases hu : u ∈ rest
    · rw [if_pos hu, if_pos (List.mem_cons_of_mem _ hu)]
    · rw [if_neg hu, dlookup_cons]
      by_cases hv : u = v
      · subst hv
        rw [if_pos rfl, if_pos (List.mem_cons_self _ _)]
      · rw [if_neg (fun hh => hv hh.symm), if_neg ?_]
        intro hmem
        rcases List.mem_cons.mp hmem with h1 | h1
        exacts [hv h1, hu h1]

theorem bt_complete (cs : List Constraint) (doms : List (String × Finset Val))
    (vord : String → Finset Val → List Val) (f : String → Val) :
    ∀ (order : List String) (a : List (String × Val)),
      (∀ v ∈ order, dlookup a v = none) →
      order.Nodup →
      (∀ v ∈ order, f v ∈ vord v ((dlookup doms v).getD ∅)) →
      consistentB cs (assignAll order f a) = true →
      bt cs doms vord order a ≠ none := by
  intro order
  induction order with
  | nil =>
    intro a _ _ _ _
    rw [bt]
    exact Option.noConfusion
  | cons v rest ih =>
    intro a hnone hnd hfv hcons
    rw [bt]
    apply btFold_ne_none
    refine ⟨f v, hfv v (List.mem_cons_self _ _), ?_, ?_⟩
    · refine consistentB_mono ?_ hcons
      intro u x hux
      rw [show assignAll (v :: rest) f a = assignAll rest f ((v, f v) :: a) from rfl,
        dlookup_assignAll]
      by_cases hu : u ∈ rest
      · rw [if_pos hu]
        have hne : u ≠ v := by
          rintro rfl
          exact (List.nodup_cons.mp hnd).1 hu
        rw [dlookup_cons, if_neg (fun hh => hne hh.symm)] at hux
        rw [hnone u (List.mem_cons_of_mem _ hu)] at hux
        exact Option.noConfusion hux
      · rw [if_neg hu]
        exact hux
    · refine ih ((v, f v) :: a) ?_ (List.nodup_cons.mp hnd).2 ?_ hcons
      · intro u hu
        rw [dlookup_cons, if_neg ?_]
        · exact hnone u (List.mem_cons_of_mem _ hu)
        · rintro rfl
          exact (List.nodup_cons.mp hnd).1 hu
      · intro u hu
        exact hfv u (List.mem_cons_of_mem _ hu)

theorem dlookup_filter_primary (P : Finset String) (l : List (String × Val)) (v : String) :
    dlookup (l.filter (fun p => decide (p.1 ∈ P))) v =
      if v ∈ P then dlookup l v else none := by
  induction l with
  | nil =>
    rw [List.filter_nil]
    by_cases hp : v ∈ P
    · rw [if_pos hp]
    · rw [if_neg hp]
      rfl
  | cons p rest ih =>
    obtain ⟨k0, v0⟩ := p
    rw [List.filter_cons]
    by_cases hk : k0 ∈ P
    · rw [if_pos (by exact decide_eq_true hk), dlookup_cons]
      by_cases hv : k0 = v
      · subst hv
        rw [if_pos rfl, dlookup_cons, if_pos rfl, if_pos hk]
      · rw [if_neg hv, ih, dlookup_cons, if_neg hv]
    · rw [if_neg (by simp [hk]), ih, dlookup_cons]
      by_cases hv : k0 = v
      · subst hv
        rw [if_neg hk, if_neg hk]
      · rw [if_neg hv]

/-- Claim C2 (the search engine is absent from the source — `CSP.backtrack`'s
body is `pass` — so `solve`/`bt` are modelled from §4.4 of the spec): for
every satisfiable CSP, the backtracking solver — for any variable order
enumerating the variables and any value-ordering strategy enumerating each
domain — returns a mapping that assigns every primary variable a value of its
domain, and that mapping extends to a total assignment satisfying every
declared Constraint, the constraints routed through encoding variables
included. -/
theorem C2_solve_satisfiable (s : CSP) (vord : String → Finset Val → List Val)
    (order : List String)
    (hordnd : order.Nodup)
    (hdoms : ∀ v ∈ order, (dlookup s.domains v).isSome)
    (hvord : ∀ (v : String) (d : Finset Val) (x : Val), x ∈ vord v d ↔ x ∈ d)
    (hprim : ∀ v ∈ s.primary_variables, v ∈ order)
    (hcvars : ∀ c ∈ s.constraints, c.vars.1 ∈ order ∧ c.vars.2 ∈ order)
    (hsat : ∃ f : String → Val, (∀ p ∈ s.domains, f p.1 ∈ p.2) ∧
      assignSat s.constraints f) :
    ∃ (m : List (String × Val)) (g : String → Val),
      s.solve vord order = some m ∧
      (∀ v ∈ s.primary_variables, dlookup m v = some (g v)) ∧
      (∀ (v : String) (x : Val), dlookup m v = some x →
        x = g v ∧ ∃ d, dlookup s.domains v = some d ∧ x ∈ d) ∧
      assignSat s.constraints g := by
  obtain ⟨f, hf, hfsat⟩ := hsat
  have hfl : ∀ v d, dlookup s.domains v = some d → f v ∈ d := by
    intro v d h
    exact hf (v, d) (dlookup_mem h)
  have hfv : ∀ v ∈ order, f v ∈ vord v ((dlookup s.domains v).getD ∅) := by
    intro v hv
    obtain ⟨d, hd⟩ := Option.isSome_iff_exists.mp (hdoms v hv)
    rw [hd]
    exact (hvord v d (f v)).mpr (hfl v d hd)
  have hcons : consistentB s.constraints (assignAll order f []) = true := by
    rw [consistentB, List.all_eq_true]
    intro c hc
    have h1 : dlookup (assignAll order f []) c.vars.1 = some (f c.vars.1) := by
      rw [dlookup_assignAll, if_pos (hcvars c hc).1]
    have h2 : dlookup (assignAll order f []) c.vars.2 = some (f c.vars.2) := by
      rw [dlookup_assignAll, if_pos (hcvars c hc).2]
    rw [h1, h2]
    exact decide_eq_true (hfsat c hc)
  have hne : bt s.constraints s.domains vord order [] ≠ none :=
    bt_complete s.constraints s.domains vord f order [] (fun v _ => rfl) hordnd hfv hcons
  rcases hbt : bt s.constraints s.domains vord order [] with - | r
  · exact absurd hbt hne
  obtain ⟨asg, hr, hkeys, hvals, hconsr⟩ := bt_sound _ _ _ order [] r hbt
  rw [List.append_nil] at hr
  rw [hr] at hbt
  have hrcons : consistentB s.constraints asg = true := hr ▸ hconsr (consistentB_nil _)
  have hkeymem : ∀ u, u ∈ order → (dlookup asg u).isSome := by
    intro u hu
    apply dlookup_isSome_of_mem_keys
    rw [show dkeys asg = asg.map Prod.fst from rfl, hkeys]
    exact List.mem_reverse.mpr hu
  set g := fun v => (dlookup asg v).getD (Val.vo 0) with hg
  have hglookup : ∀ u x, dlookup asg u = some x → g u = x := by
    intro u x h
    simp [hg, h]
  have hsatg : assignSat s.constraints g := by
    intro c hc
    obtain ⟨x1, hx1⟩ := Option.isSome_iff_exists.mp (hkeymem _ (hcvars c hc).1)
    obtain ⟨x2, hx2⟩ := Option.isSome_iff_exists.mp (hkeymem _ (hcvars c hc).2)
    have hall := hrcons
    rw [consistentB, List.all_eq_true] at hall
    have hcc := hall c hc
    rw [hx1, hx2] at hcc
    rw [hglookup _ _ hx1, hglookup _ _ hx2]
    exact of_decide_eq_true hcc
  refine ⟨asg.filter (fun p => decide (p.1 ∈ s.primary_variables)), g, ?_, ?_, ?_, hsatg⟩
  · rw [CSP.solve, hbt]
    rfl
  · intro v hv
    rw [dlookup_filter_primary, if_pos hv]
    obtain ⟨x, hx⟩ := Option.isSome_iff_exists.mp (hkeymem v (hprim v hv))
    rw [hx, hglookup v x hx]
  · intro v x hx
    rw [dlookup_filter_primary] at hx
    by_cases hv : v ∈ s.primary_variables
    · rw [if_pos hv] at hx
      refine ⟨(hglookup v x hx).symm, ?_⟩
      have hmem : (v, x) ∈ asg := dlookup_mem hx
      have hvordmem := hvals (v, x) hmem
      cases hdd : dlookup s.domains v with
      | none =>
        rw [hdd] at hvordmem
        exact absurd ((hvord v ∅ x).mp hvordmem) (Finset.not_mem_empty x)
      | some d =>
        rw [hdd] at hvordmem
        exact ⟨d, rfl, (hvord v d x).mp hvordmem⟩
    · rw [if_neg hv] at hx
      exact Option.noConfusion hx

def c2CSP : CSP :=
  (((CSP.init.add_variable "a" {0, 1}).add_variable "b" {0, 1}).diff ["a", "b"]).state

/-- Witness for C2 at a concrete input: the two-variable disequality CSP over
`{0, 1}` is satisfiable, and the solver returns a complete satisfying
assignment of the primary variables. -/
theorem C2_solve_satisfiable_witness :
    (["a", "b"] : List String).Nodup ∧
    (∀ v ∈ (["a", "b"] : List String), (dlookup c2CSP.domains v).isSome) ∧
    (∀ v ∈ c2CSP.primary_variables, v ∈ (["a", "b"] : List String)) ∧
    (∀ c ∈ c2CSP.constraints, c.vars.1 ∈ (["a", "b"] : List String) ∧
      c.vars.2 ∈ (["a", "b"] : List String)) ∧
    ∃ (m : List (String × Val)) (g : String → Val),
      c2CSP.solve (fun _ d => d.toList) ["a", "b"] = some m ∧
      (∀ v ∈ c2CSP.primary_variables, dlookup m v = some (g v)) ∧
      assignSat c2CSP.constraints g := by
  refine ⟨by decide, by decide, by decide, by decide, ?_⟩
  obtain ⟨m, g, h1, h2, h3, h4⟩ := C2_solve_satisfiable c2CSP (fun _ d => d.toList)
    ["a", "b"] (by decide) (by decide) (fun v d x => Finset.mem_toList) (by decide)
    (by decide)
    ⟨fun v => if v = "a" then Val.vi 0 else Val.vi 1, by decide, by unfold assignSat; decide⟩
  exact ⟨m, g, h1, h2, h4⟩
